import Mathlib

/-!
Verification of the `unity-git-hooks` repository: a shallow embedding of the
`PathNode`/`PathTree` structures (`check_unity_meta_files/util/fs/pathtree.py`),
of the Unity path classification helpers (`check_unity_meta_files/util/git.py`),
and of the consistency checker (`check_unity_meta_files/check_unity_meta_files.py`).

Python objects live on a heap and the code relies on object identity (`is`)
and parent back-references, so the embedding uses an explicit store of nodes
addressed by numeric ids.  `pathlib.PurePath` values are embedded as their
`parts` tuples, i.e. as `List String` (an absolute POSIX path carries the
anchor `"/"` as its first part, exactly as `PurePath.parts` reports it).
Python `ValueError`s are split into the distinct failure modes the raise
sites correspond to.  Loops that walk parent pointers or queues take a fuel
argument (`Err.internal` reports exhaustion); the Python originals simply
loop, and the fuel passed by the wrappers is large enough for every
well-formed store.
-/

namespace UnityHooks

/-- Failure modes of the embedded code.  Each constructor corresponds to a
distinct `raise` site of the Python source: `invalidName` for
`PathNode.add_child`'s two name checks, `duplicateChild` for its duplicate
check, `notFound` for missing children/descendants, `invalidPath` for
`PathTree._check_path`, `invalidArgument` for `PathTree.prune`'s limit check,
`valueError` for the `ValueError`s raised by the suffix helpers in `git.py`,
`nameError` for Python's `NameError` (an unbound local variable), and
`internal` for fuel exhaustion or heap corruption that the Python runtime
would surface as an infinite loop or `AttributeError`. -/
inductive Err where
  | invalidName
  | duplicateChild
  | notFound
  | invalidPath
  | invalidArgument
  | valueError
  | nameError
  | internal
deriving DecidableEq, Repr

deriving instance DecidableEq for Except

/-- A `pathlib.PurePath`, embedded as its `parts` tuple. -/
abbrev PParts := List String

/-- The characters of a string; all string manipulation in the embedding is
done on character lists so that every step is structurally recursive. -/
def chars (s : String) : List Char := s.data

/-- Python `a + b` on strings. -/
def strApp (a b : String) : String := ⟨chars a ++ chars b⟩

/-- Python `s[:k]` (take the first `k` characters). -/
def strTake (s : String) (k : Nat) : String := ⟨(chars s).take k⟩

/-- Python `s.startswith(pre)`. -/
def strStarts (s pre : String) : Bool := (chars pre).isPrefixOf (chars s)

/-- Index of the last occurrence of `c` in the list, Python `s.rfind(c)`
(with `none` playing the role of `-1`). -/
def rfindChar (cs : List Char) (c : Char) : Option Nat :=
  match cs with
  | [] => none
  | x :: xs =>
    match rfindChar xs c with
    | some i => some (i + 1)
    | none => if x = c then some 0 else none

/-- `PurePath.name`: the final component of the path, `""` for the empty
path and for the bare anchor `/`. -/
def nameOf (p : PParts) : String :=
  if p = [] ∨ p = ["/"] then "" else p.getLast?.getD ""

/-- `PurePath.parent`: drop the final component; the empty path and the bare
anchor are their own parents. -/
def parentOf (p : PParts) : PParts :=
  if p = [] ∨ p = ["/"] then p else p.dropLast

/-- `PurePath.suffix` of a single component, following
`pathlib`: the substring from the last dot, provided that dot is neither the
first nor the last character of the component. -/
def sfxChars (cs : List Char) : List Char :=
  match rfindChar cs '.' with
  | some i => if 0 < i ∧ i < cs.length - 1 then cs.drop i else []
  | none => []

/-- `PurePath.suffix` of a path: the suffix of its `name`. -/
def sfx (p : PParts) : String := ⟨sfxChars (chars (nameOf p))⟩

/-- `PurePath.is_absolute()` for POSIX paths: the parts begin with the
anchor. -/
def isAbs (p : PParts) : Bool := p.headD "" == "/"

/-- Splitting a character list on `/` (the segment boundaries of a POSIX
path string). -/
def splitSeg (cs : List Char) (acc : List Char) : List (List Char) :=
  match cs with
  | [] => [acc.reverse]
  | c :: rest => if c = '/' then acc.reverse :: splitSeg rest [] else splitSeg rest (c :: acc)

/-- `PurePath(s).parts` for a raw string `s`: split on `/`, drop empty and
`.` segments, and keep the anchor as a first part when the string starts
with `/`.  (The POSIX double-slash corner case is not modelled; no input in
this development begins with `//`.) -/
def parseParts (s : String) : PParts :=
  let segs := ((splitSeg (chars s) []).map (fun cs => String.mk cs)).filter
    (fun seg => seg ≠ "" && seg ≠ ".")
  if strStarts s "/" then "/" :: segs else segs

/-- The final component produced by `PurePath.with_suffix`: append the new
suffix when the component has no suffix, else replace the old one. -/
def newNameFor (name newSfx : String) : String :=
  if (⟨sfxChars (chars name)⟩ : String) = "" then strApp name newSfx
  else strApp (strTake name ((chars name).length - (sfxChars (chars name)).length)) newSfx

/-- `PurePath.with_suffix(newSfx)`: validates the new suffix, requires a
non-empty final component, and replaces the old suffix (or appends when
there is none). -/
def withSuffix (p : PParts) (newSfx : String) : Except Err PParts :=
  if (chars newSfx).contains '/' then .error .valueError
  else if (newSfx ≠ "" ∧ ¬ strStarts newSfx ".") ∨ newSfx = "." then .error .valueError
  else if nameOf p = "" then .error .valueError
  else .ok (p.dropLast ++ [newNameFor (nameOf p) newSfx])

/-- `UnityGitRepository.is_hidden`: some part starts with a dot. -/
def is_hidden (p : PParts) : Bool := p.any (fun seg => strStarts seg ".")

/-- `UnityGitRepository.is_asset`: at least two parts, the first being
`Assets`, no hidden part, and the suffix is not `.meta`. -/
def is_asset (p : PParts) : Bool :=
  if p.length > 1 && p.headD "" == "Assets" then
    !is_hidden p && sfx p != ".meta"
  else false

/-- `UnityGitRepository.is_meta_file`: at least two parts, the first being
`Assets`, no hidden part, and the suffix is exactly `.meta`. -/
def is_meta_file (p : PParts) : Bool :=
  if p.length > 1 && p.headD "" == "Assets" then
    !is_hidden p && sfx p == ".meta"
  else false

/-- `UnityGitRepository.meta_file_for_asset`: reject paths that are already
meta files, otherwise append `.meta` after the existing suffix. -/
def meta_file_for_asset (p : PParts) : Except Err PParts :=
  if sfx p = ".meta" then .error .valueError
  else withSuffix p (strApp (sfx p) ".meta")

/-- `UnityGitRepository.asset_for_meta_file`: reject paths whose suffix is
not `.meta`, otherwise strip the suffix. -/
def asset_for_meta_file (p : PParts) : Except Err PParts :=
  if sfx p ≠ ".meta" then .error .valueError
  else withSuffix p ""

/-! ### The heap of `PathNode` objects -/

/-- The state of one `PathNode` object: its `_name`, its `_parent`
back-reference, and its `_children` ordered mapping (an `OrderedDict`,
embedded as an insertion-ordered association list). -/
structure NodeData where
  name : String
  parent : Option Nat
  children : List (String × Nat)
deriving DecidableEq, Repr

/-- The heap: every `PathNode` ever allocated, addressed by id, together
with the next fresh id.  Objects are never deallocated (unlinking a child
merely drops the mapping entry, exactly as Python's garbage objects keep
their fields). -/
structure Store where
  next : Nat
  nodes : List (Nat × NodeData)
deriving DecidableEq, Repr

/-- Read a node from the heap. -/
def Store.get (s : Store) (i : Nat) : Option NodeData := s.nodes.lookup i

/-- Overwrite (or create) the node at `i`. -/
def Store.set (s : Store) (i : Nat) (d : NodeData) : Store :=
  ⟨s.next, (i, d) :: s.nodes.filter (fun kv => kv.1 != i)⟩

/-- Allocate a fresh node, returning its id. -/
def Store.alloc (s : Store) (d : NodeData) : Store × Nat :=
  (⟨s.next + 1, (s.next, d) :: s.nodes⟩, s.next)

/-- `OrderedDict` lookup in a children mapping. -/
def childLookup (cs : List (String × Nat)) (n : String) : Option Nat :=
  cs.lookup n

/-- `OrderedDict.pop`: drop the entry for `n`, preserving the order of the
remaining entries. -/
def childPop (cs : List (String × Nat)) (n : String) : List (String × Nat) :=
  cs.filter (fun kv => kv.1 != n)

/-! ### `PathNode` operations -/

/-- `PathNode.add_child(childname)`: reject names that parse to several path
levels, reject duplicates, reject the empty name (raised by the `PathNode`
constructor), then allocate the child and link it at the end of the ordered
children mapping. -/
def addChild (s : Store) (i : Nat) (childname : String) : Except Err (Store × Nat) :=
  if (parseParts childname).length > 1 then .error .invalidName
  else
    match s.get i with
    | none => .error .internal
    | some d =>
      if (childLookup d.children childname).isSome then .error .duplicateChild
      else if childname = "" then .error .invalidName
      else
        let (s1, cid) := s.alloc ⟨childname, some i, []⟩
        .ok (s1.set i { d with children := d.children ++ [(childname, cid)] }, cid)

/-- `PathNode.remove_child(childname)`: reject missing children, otherwise
unlink the entry (the child object itself stays on the heap, unreachable).
Returns the node it was called on. -/
def removeChild (s : Store) (i : Nat) (childname : String) : Except Err (Store × Nat) :=
  match s.get i with
  | none => .error .internal
  | some d =>
    if (childLookup d.children childname).isSome then
      .ok (s.set i { d with children := childPop d.children childname }, i)
    else .error .notFound

/-- `PathNode.descendant(path)`: walk the children mappings part by part,
raising on the first missing part. -/
def descendantFrom (s : Store) (i : Nat) (p : PParts) : Except Err Nat :=
  match p with
  | [] => .ok i
  | part :: rest =>
    match s.get i with
    | none => .error .internal
    | some d =>
      match childLookup d.children part with
      | some c => descendantFrom s c rest
      | none => .error .notFound

/-- `PathNode.has_descendant(path)`: the same walk, returning `false`
instead of raising. -/
def hasDescendantFrom (s : Store) (i : Nat) (p : PParts) : Bool :=
  match p with
  | [] => true
  | part :: rest =>
    match s.get i with
    | none => false
    | some d =>
      match childLookup d.children part with
      | some c => hasDescendantFrom s c rest
      | none => false

/-- `PathNode.clear()`: drop all children mapping entries of the node. -/
def clearNode (s : Store) (i : Nat) : Except Err Store :=
  match s.get i with
  | none => .error .internal
  | some d => .ok (s.set i { d with children := [] })

/-! ### `PathTree` operations -/

/-- A `PathTree`: the heap it owns, the id of its root `PathNode` (named
`"."`, parentless), and the `rootpath` tag (unused by the tree logic). -/
structure Tree where
  store : Store
  root : Nat
  rootpath : PParts
deriving DecidableEq, Repr

/-- `PathTree.__init__(path)`: a fresh heap holding just the root node. -/
def mkTree (rootpath : PParts) : Tree :=
  let (s, r) := (Store.alloc ⟨0, []⟩ ⟨".", none, []⟩)
  ⟨s, r, rootpath⟩

/-- `PathTree._check_path`: only relative paths are acceptable. -/
def checkPath (p : PParts) : Except Err Unit :=
  if isAbs p then .error .invalidPath else .ok ()

/-- The walking loop of `PathTree.add`: descend into existing children,
create the missing ones. -/
def addLoop (t : Tree) (i : Nat) (p : PParts) : Except Err (Tree × Nat) :=
  match p with
  | [] => .ok (t, i)
  | part :: rest =>
    match t.store.get i with
    | none => .error .internal
    | some d =>
      match childLookup d.children part with
      | some c => addLoop t c rest
      | none =>
        match addChild t.store i part with
        | .error e => .error e
        | .ok (s1, c) => addLoop { t with store := s1 } c rest

/-- `PathTree.add(path)`: check the path is relative, then walk from the
root creating missing segments; returns the node of the final segment. -/
def Tree.add (t : Tree) (p : PParts) : Except Err (Tree × Nat) :=
  match checkPath p with
  | .error e => .error e
  | .ok _ => addLoop t t.root p

/-- `PathTree.descendant(path)` (no relative-path check in the source). -/
def Tree.descendant (t : Tree) (p : PParts) : Except Err Nat :=
  descendantFrom t.store t.root p

/-- `PathTree.has_descendant(path)`. -/
def Tree.hasDescendant (t : Tree) (p : PParts) : Bool :=
  hasDescendantFrom t.store t.root p

/-- `PathTree.is_path_to_root(path)`. -/
def isPathToRoot (p : PParts) : Bool := p.length == 0

/-- `PathTree.clear()`. -/
def Tree.clear (t : Tree) : Except Err Tree :=
  match clearNode t.store t.root with
  | .error e => .error e
  | .ok s1 => .ok { t with store := s1 }

/-- `PathTree.remove(path)`: the zero-segment path clears the whole tree and
returns nothing; otherwise locate the parent of the target and unlink the
named child, returning the parent. -/
def Tree.remove (t : Tree) (p : PParts) : Except Err (Tree × Option Nat) :=
  if isPathToRoot p then
    match t.clear with
    | .error e => .error e
    | .ok t1 => .ok (t1, none)
  else
    match t.descendant (parentOf p) with
    | .error e => .error e
    | .ok par =>
      match removeChild t.store par (nameOf p) with
      | .error e => .error e
      | .ok (s1, _) => .ok ({ t with store := s1 }, some par)

/-- `PathTree.children(path)`: the child ids of the node at `path`, in
insertion order (no relative-path check in the source). -/
def Tree.children (t : Tree) (p : PParts) : Except Err (List Nat) :=
  match t.descendant p with
  | .error e => .error e
  | .ok i =>
    match t.store.get i with
    | none => .error .internal
    | some d => .ok (d.children.map (fun kv => kv.2))

/-- `PathTree.children_count(path)`: checks the path is relative, then
counts the children of the node at `path`. -/
def Tree.childrenCount (t : Tree) (p : PParts) : Except Err Nat :=
  match checkPath p with
  | .error e => .error e
  | .ok _ =>
    match t.descendant p with
    | .error e => .error e
    | .ok i =>
      match t.store.get i with
      | none => .error .internal
      | some d => .ok d.children.length

/-- `PathTree.has_children(path)`: delegates to `children_count`. -/
def Tree.hasChildren (t : Tree) (p : PParts) : Except Err Bool :=
  match t.childrenCount p with
  | .error e => .error e
  | .ok n => .ok (n > 0)

/-! ### `PathTree.prune` -/

/-- The ancestry-check loop of `prune`: climb from `cur` until the parent is
`None` or the limit node, and return where the climb stopped. -/
def ancestorWalk (fuel : Nat) (s : Store) (limit : Nat) (cur : Nat) :
    Except Err Nat :=
  match fuel with
  | 0 => .error .internal
  | fuel + 1 =>
    match s.get cur with
    | none => .error .internal
    | some d =>
      match d.parent with
      | none => .ok cur
      | some p => if p == limit then .ok cur else ancestorWalk fuel s limit p

/-- The upward-removal loop of `prune`: repeatedly unlink the current
`parent` from its own parent while it is not the root, not the limit node,
and childless. -/
def pruneLoop (fuel : Nat) (s : Store) (limit : Nat) (parent : Nat) :
    Except Err (Store × Nat) :=
  match fuel with
  | 0 => .error .internal
  | fuel + 1 =>
    match s.get parent with
    | none => .error .internal
    | some d =>
      if d.parent = none ∨ parent = limit ∨ d.children.length > 0 then .ok (s, parent)
      else
        match d.parent with
        | none => .ok (s, parent)
        | some gp =>
          match removeChild s gp d.name with
          | .error e => .error e
          | .ok (s1, _) => pruneLoop fuel s1 limit gp

/-- `PathTree.prune(path, limit_path)`: resolve both paths, verify that the
limit node is a proper ancestor of the target (else `InvalidArgumentError`),
unlink the target from its parent, then run the bounded upward removal and
return the last node left un-removed.  (No relative-path check in the
source.) -/
def Tree.prune (t : Tree) (path limit_path : PParts) : Except Err (Tree × Nat) :=
  match t.descendant path with
  | .error e => .error e
  | .ok node =>
    match t.descendant limit_path with
    | .error e => .error e
    | .ok limit =>
      match ancestorWalk (t.store.next + 1) t.store limit node with
      | .error e => .error e
      | .ok stop =>
        match t.store.get stop with
        | none => .error .internal
        | some dstop =>
          if dstop.parent = none then .error .invalidArgument
          else
            match t.store.get node with
            | none => .error .internal
            | some dnode =>
              match dnode.parent with
              | none => .error .internal
              | some par =>
                match removeChild t.store par dnode.name with
                | .error e => .error e
                | .ok (s1, _) =>
                  match pruneLoop (t.store.next + 1) s1 limit par with
                  | .error e => .error e
                  | .ok (s2, stopping) => .ok ({ t with store := s2 }, stopping)

/-! ### Traversals and enumeration -/

/-- `PurePath./` with a single node name: joining `.` is the identity,
joining the anchor `/` resets the path, anything else appends a part. -/
def joinSeg (base : PParts) (name : String) : PParts :=
  if name = "." then base
  else if name = "/" then ["/"]
  else base ++ [name]

/-- The stack loop of `PathTree.traverse_depth_first`, yielding node names:
pop the top of the stack, yield it, push its children in insertion order (so
the last-inserted child is popped first). -/
def dfsLoop (fuel : Nat) (s : Store) (stack : List Nat) : Except Err (List String) :=
  match stack with
  | [] => .ok []
  | n :: rest =>
    match fuel with
    | 0 => .error .internal
    | fuel + 1 =>
      match s.get n with
      | none => .error .internal
      | some d =>
        let pushed :=
          if d.children.length > 0 then (d.children.map (fun kv => kv.2)).reverse ++ rest
          else rest
        match dfsLoop fuel s pushed with
        | .error e => .error e
        | .ok tail => .ok (d.name :: tail)

/-- `PathTree.traverse_depth_first()`, as the sequence of visited node
names. -/
def Tree.traverseDepthFirst (t : Tree) (fuel : Nat) : Except Err (List String) :=
  dfsLoop fuel t.store [t.root]

/-- The inner `for node in nodes` loop of `PathTree.all_paths`: yield
`base / node.name` for every node of the group and queue each node's
children group.  (The source tests the truthiness of the *bound method*
`node.has_children`, which is always true, so a group is queued even for a
childless node.) -/
def allPathsGroup (s : Store) (base : PParts) (nodes : List Nat) :
    Except Err (List PParts × List (PParts × List Nat)) :=
  match nodes with
  | [] => .ok ([], [])
  | n :: rest =>
    match s.get n with
    | none => .error .internal
    | some d =>
      let path := joinSeg base d.name
      match allPathsGroup s base rest with
      | .error e => .error e
      | .ok (ys, qs) => .ok (path :: ys, (path, d.children.map (fun kv => kv.2)) :: qs)

/-- The queue loop of `PathTree.all_paths`. -/
def allPathsLoop (fuel : Nat) (s : Store) (q : List (PParts × List Nat)) :
    Except Err (List PParts) :=
  match q with
  | [] => .ok []
  | (base, nodes) :: rest =>
    match fuel with
    | 0 => .error .internal
    | fuel + 1 =>
      match allPathsGroup s base nodes with
      | .error e => .error e
      | .ok (ys, qs) =>
        match allPathsLoop fuel s (rest ++ qs) with
        | .error e => .error e
        | .ok tail => .ok (ys ++ tail)

/-- `PathTree.all_paths()`: breadth-order enumeration of the full relative
path of every node, starting from the root group based at `PurePath(".")`
(whose parts are empty). -/
def Tree.allPaths (t : Tree) : Except Err (List PParts) :=
  allPathsLoop (2 * t.store.nodes.length + 2) t.store [([], [t.root])]

/-- The `for path in paths: tree.add(path)` loop of
`PathTree.from_iterable`. -/
def addAll (t : Tree) : List PParts → Except Err Tree
  | [] => .ok t
  | p :: rest =>
    match t.add p with
    | .error e => .error e
    | .ok (t1, _) => addAll t1 rest

/-- `PathTree.from_iterable(paths, rootpath)`. -/
def fromIterable (paths : List PParts) (rootpath : PParts) : Except Err Tree :=
  addAll (mkTree rootpath) paths

/-! ### The repository collaborator and the consistency checker -/

/-- The version-control collaborator, as the checker consumes it: the
answers of `tracked_at("Assets/")`, of `staged_at("Assets/")` (an
insertion-ordered mapping from change kind to a collection of path tuples,
each tuple a list of paths), and the live `path_exists`/`is_file` oracles;
`root` is the `rootpath` tag handed to the tree. -/
structure Repo where
  tracked : List PParts
  staged : List (String × List (List PParts))
  pathExists : PParts → Bool
  isFile : PParts → Bool
  root : PParts

/-- `set.add` on the recorded result sets: insert unless already present. -/
def setAdd (l : List PParts) (x : PParts) : List PParts :=
  if x ∈ l then l else l ++ [x]

/-- The `change == "D"` inner loop of `check_unity_meta_files`: prune each
non-hidden deleted path, bounded at `Assets`. -/
def checkerDeletes (t : Tree) : List (List PParts) → Except Err Tree
  | [] => .ok t
  | [] :: _ => .error .internal
  | [p] :: rest =>
    if !is_hidden p then
      match t.prune p ["Assets"] with
      | .error e => .error e
      | .ok (t1, _) => checkerDeletes t1 rest
    else checkerDeletes t rest
  | (_ :: _ :: _) :: _ => .error .internal

/-- The `change == "A"` inner loop of `check_unity_meta_files`: add each
non-hidden added path. -/
def checkerAdds (t : Tree) : List (List PParts) → Except Err Tree
  | [] => .ok t
  | [] :: _ => .error .internal
  | [p] :: rest =>
    if !is_hidden p then
      match t.add p with
      | .error e => .error e
      | .ok (t1, _) => checkerAdds t1 rest
    else checkerAdds t rest
  | (_ :: _ :: _) :: _ => .error .internal

/-- The `change == "R"` inner loop of `check_unity_meta_files`: for each
rename, prune the old path (bounded at `Assets`) unless it is hidden, then
add the new path unless it is hidden — each side filtered independently. -/
def checkerRenames (t : Tree) : List (List PParts) → Except Err Tree
  | [] => .ok t
  | [] :: _ => .error .internal
  | [_] :: _ => .error .internal
  | [old, new] :: rest =>
    match (if !is_hidden old then
        match t.prune old ["Assets"] with
        | .error e => .error e
        | .ok (t1, _) => .ok t1
      else .ok t : Except Err Tree) with
    | .error e => .error e
    | .ok t1 =>
      if !is_hidden new then
        match t1.add new with
        | .error e => .error e
        | .ok (t2, _) => checkerRenames t2 rest
      else checkerRenames t1 rest
  | (_ :: _ :: _ :: _) :: _ => .error .internal

/-- The `for change, paths in repository.staged_at("Assets/").items()` loop
of `check_unity_meta_files`; change kinds other than `D`, `A`, `R` are
ignored. -/
def checkerStaged (t : Tree) : List (String × List (List PParts)) → Except Err Tree
  | [] => .ok t
  | (change, tuples) :: rest =>
    match (if change = "D" then checkerDeletes t tuples
      else if change = "A" then checkerAdds t tuples
      else if change = "R" then checkerRenames t tuples
      else .ok t) with
    | .error e => .error e
    | .ok t1 => checkerStaged t1 rest

/-- The tree-building phase of `check_unity_meta_files`: seed a tree with
the non-hidden tracked paths, then apply the staged changes. -/
def buildProposed (repo : Repo) : Except Err Tree :=
  match fromIterable (repo.tracked.filter (fun p => !is_hidden p)) repo.root with
  | .error e => .error e
  | .ok t => checkerStaged t repo.staged

/-- The classification loop of `check_unity_meta_files`: for every
enumerated path, record a missing companion when an existing asset's meta
file is not a file, and record an orphan when an on-disk meta file's asset
does not exist. -/
def classifyLoop (repo : Repo) (paths : List PParts) (missing orphans : List PParts) :
    Except Err (List PParts × List PParts) :=
  match paths with
  | [] => .ok (missing, orphans)
  | p :: rest =>
    if is_asset p && repo.pathExists p then
      match meta_file_for_asset p with
      | .error e => .error e
      | .ok m =>
        if !repo.isFile m then classifyLoop repo rest (setAdd missing m) orphans
        else classifyLoop repo rest missing orphans
    else if is_meta_file p && repo.isFile p then
      match asset_for_meta_file p with
      | .error e => .error e
      | .ok a =>
        if !repo.pathExists a then classifyLoop repo rest missing (setAdd orphans p)
        else classifyLoop repo rest missing orphans
    else classifyLoop repo rest missing orphans

/-- `check_unity_meta_files(repository)`: build the proposed tree, enumerate
its paths, classify them, and return success (both sets empty) together
with the two sets. -/
def check_unity_meta_files (repo : Repo) : Except Err (Bool × List PParts × List PParts) :=
  match buildProposed repo with
  | .error e => .error e
  | .ok t =>
    match t.allPaths with
    | .error e => .error e
    | .ok paths =>
      match classifyLoop repo paths [] [] with
      | .error e => .error e
      | .ok (missing, orphans) =>
        .ok (missing.length + orphans.length == 0, missing, orphans)

/-! ### `UnityGitRepository.proposed` -/

/-- The staged-changes loop of `UnityGitRepository.proposed` in
`util/git.py`.  Faithful to the source's local-variable scoping: the rename
branch prunes the loop variable `path` — whatever the `D`/`A` branches last
bound it to (`NameError` when nothing bound it) — instead of the rename's
own `old`, and no branch applies the hidden filter.  `lastPath` threads the
current value of the Python local `path`. -/
def proposedStaged (t : Tree) (lastPath : Option PParts)
    (staged : List (String × List (List PParts))) : Except Err Tree :=
  match staged with
  | [] => .ok t
  | (change, tuples) :: rest =>
    let step : Except Err (Tree × Option PParts) :=
      if change = "D" then
        tuples.foldlM (fun (acc : Tree × Option PParts) tup =>
          match tup with
          | [p] =>
            match acc.1.prune p ["Assets"] with
            | .error e => .error e
            | .ok (t1, _) => .ok (t1, some p)
          | _ => .error .internal) (t, lastPath)
      else if change = "A" then
        tuples.foldlM (fun (acc : Tree × Option PParts) tup =>
          match tup with
          | [p] =>
            match acc.1.add p with
            | .error e => .error e
            | .ok (t1, _) => .ok (t1, some p)
          | _ => .error .internal) (t, lastPath)
      else if change = "R" then
        tuples.foldlM (fun (acc : Tree × Option PParts) tup =>
          match tup with
          | [_, new] =>
            match acc.2 with
            | none => .error .nameError
            | some stale =>
              match acc.1.prune stale ["Assets"] with
              | .error e => .error e
              | .ok (t1, _) =>
                match t1.add new with
                | .error e => .error e
                | .ok (t2, _) => .ok (t2, acc.2)
          | _ => .error .internal) (t, lastPath)
      else .ok (t, lastPath)
    match step with
    | .error e => .error e
    | .ok (t1, lp1) => proposedStaged t1 lp1 rest

/-- `UnityGitRepository.proposed()`: seed a tree with the tracked paths that
classify as assets, then apply the staged changes with the loop above. -/
def proposed (repo : Repo) : Except Err Tree :=
  match fromIterable (repo.tracked.filter is_asset) (repo.root ++ ["Assets"]) with
  | .error e => .error e
  | .ok t => proposedStaged t none repo.staged

/-! ### Specification-side notions

The definitions below are not translations of source functions; they are the
vocabulary the theorems use to describe the source's behaviour: heap
well-formedness, the pure tree a store denotes, the ancestor chain of a
node, and the depth-first visit order described by the specification. -/

/-- Well-formedness of a `PathNode` heap, as the `PathTree` operations
maintain it: every stored id is below the allocation counter, parent
back-references point below the node itself (children are always allocated
after their parent) and at an existing node, every children entry points at
an existing node carrying that name and a back-reference to the container,
and sibling names are unique. -/
structure Inv (s : Store) : Prop where
  keys_lt : ∀ i d, s.get i = some d → i < s.next
  parent_lt : ∀ i d p, s.get i = some d → d.parent = some p → p < i
  parent_mem : ∀ i d p, s.get i = some d → d.parent = some p →
    ∃ pd, s.get p = some pd
  child_link : ∀ i d n c, s.get i = some d → (n, c) ∈ d.children →
    ∃ cd, s.get c = some cd ∧ cd.name = n ∧ cd.parent = some i
  child_keys_nodup : ∀ i d, s.get i = some d → (d.children.map Prod.fst).Nodup

/-- Every node of the heap except a root is named without a leading dot
(the hidden marker).  The checker only ever inserts non-hidden paths, so
this holds of every tree it builds. -/
def CleanStore (s : Store) : Prop :=
  ∀ i d, s.get i = some d → d.name = "." ∨ strStarts d.name "." = false

/-- A pure rose tree of node names: the denotation of the reachable part of
a heap. -/
inductive PTree where
  | node : String → List PTree → PTree

mutual

/-- Number of nodes of a pure tree. -/
def PTree.count : PTree → Nat
  | .node _ cs => 1 + PTree.countL cs

/-- Number of nodes of a forest. -/
def PTree.countL : List PTree → Nat
  | [] => 0
  | t :: ts => PTree.count t + PTree.countL ts

end

mutual

/-- The depth-first visit order the specification describes: the root is
visited first, and among siblings the *last-inserted* child's subtree is
traversed completely before its earlier-inserted siblings. -/
def PTree.dfsSpec : PTree → List String
  | .node n cs => n :: PTree.dfsSpecRev cs

/-- Visit a forest of siblings from the last-inserted one backwards, each
subtree completely before the next. -/
def PTree.dfsSpecRev : List PTree → List String
  | [] => []
  | t :: ts => PTree.dfsSpecRev ts ++ PTree.dfsSpec t

end

/-- Read a list of pure trees with a given per-node reader `f`, failing if
any read fails. -/
def extractL (f : Nat → Option PTree) : List Nat → Option (List PTree)
  | [] => some []
  | i :: rest =>
    match f i with
    | none => none
    | some t =>
      match extractL f rest with
      | none => none
      | some ts => some (t :: ts)

/-- Read the pure tree reachable from node `i`, up to depth `fuel`. -/
def extract (s : Store) : Nat → Nat → Option PTree
  | 0, _ => none
  | fuel + 1, i =>
    match s.get i with
    | none => none
    | some d =>
      match extractL (fun j => extract s fuel j) (d.children.map (fun kv => kv.2)) with
      | none => none
      | some cs => some (.node d.name cs)

/-- Concatenated depth-first output of a forest, first tree first. -/
def PTree.dfsForest : List PTree → List String
  | [] => []
  | t :: ts => PTree.dfsSpec t ++ PTree.dfsForest ts

/-- The proper ancestors of `i`, nearest first, following parent
back-references for at most `fuel` steps. -/
def parentChainAux (s : Store) (fuel : Nat) (i : Nat) : List Nat :=
  match fuel with
  | 0 => []
  | fuel + 1 =>
    match s.get i with
    | none => []
    | some d =>
      match d.parent with
      | none => []
      | some p => p :: parentChainAux s fuel p

/-- The proper ancestors of `i`, nearest first (the fuel `i + 1` is enough
on a well-formed heap because parent ids strictly decrease). -/
def ancestors (s : Store) (i : Nat) : List Nat := parentChainAux s (i + 1) i

/-- Number of children of node `i`. -/
def childCount (s : Store) (i : Nat) : Nat :=
  match s.get i with
  | none => 0
  | some d => d.children.length

/-- Whether node `i` is a root node (no parent). -/
def isRootId (s : Store) (i : Nat) : Prop :=
  match s.get i with
  | none => False
  | some d => d.parent = none

/-- The name of node `i` (defaulting to `""` for a missing node). -/
def nameIn (s : Store) (i : Nat) : String :=
  match s.get i with
  | none => ""
  | some d => d.name

/-- The stopping condition of `prune`'s upward removal, phrased against the
*original* heap: an ancestor stops the removal exactly when it is a root,
or is the limit node, or had at least two children before the removal
reached it (each visited ancestor loses exactly one child, so it "still has
children" afterwards exactly when it had at least two). -/
def stopAt (s : Store) (limit i : Nat) : Prop :=
  isRootId s i ∨ i = limit ∨ 2 ≤ childCount s i

/-- Apply a sequence of child unlinkings `(container, childName)` in
order. -/
def unlinkSeq (s : Store) : List (Nat × String) → Except Err Store
  | [] => .ok s
  | (i, nm) :: rest =>
    match removeChild s i nm with
    | .error e => .error e
    | .ok (s1, _) => unlinkSeq s1 rest

/-- Node `j`'s parent back-reference is matched by a children entry of the
parent carrying `j`'s name (true of every node reachable from the root,
though not of unlinked garbage nodes, which keep a stale parent field). -/
def ParentLinked (s : Store) (j : Nat) : Prop :=
  ∀ dj p, s.get j = some dj → dj.parent = some p →
    ∃ dp, s.get p = some dp ∧ childLookup dp.children dj.name = some j

/-- Every node on the parent chain of `i` (including `i` itself) is linked
into its parent's children mapping. -/
def AttachedUp (s : Store) (i : Nat) : Prop :=
  ∀ j, j ∈ i :: ancestors s i → ParentLinked s j

/-- `s2` refines `s` by only ever dropping children entries: every node of
`s2` exists in `s` with the same name and parent, and every successful
child lookup in `s2` succeeds with the same result in `s`. -/
def SubChildren (s2 s : Store) : Prop :=
  ∀ j d2, s2.get j = some d2 → ∃ d, s.get j = some d ∧ d2.name = d.name ∧
    d2.parent = d.parent ∧
    ∀ nm c, childLookup d2.children nm = some c → childLookup d.children nm = some c

/-- A fresh tree used by concrete witnesses. -/
def twBase : Tree := mkTree []

/-- The tree obtained by adding `Assets/a/b/c` and `Assets/a/e`, used to
witness the prune contract. -/
def tw5 : Tree :=
  match fromIterable [["Assets", "a", "b", "c"], ["Assets", "a", "e"]] [] with
  | .ok t => t
  | .error _ => mkTree []

/-- The tree obtained by adding `a/b` to the fresh tree. -/
def twAdded : Tree :=
  match twBase.add ["a", "b"] with
  | .ok r => r.1
  | .error _ => twBase

/-- The tree obtained by adding the path `a/../b` (with a literal `..`
segment) to a fresh tree. -/
def twDots : Tree :=
  match twBase.add ["a", "..", "b"] with
  | .ok r => r.1
  | .error _ => twBase

/-- A repository with one tracked asset, a staged addition, and a staged
rename, exercising the rename branch of `proposed()` after the `A` loop has
bound the local variable `path`. -/
def repoStaleRename : Repo where
  tracked := [["Assets", "old"]]
  staged := [("A", [[["Assets", "b"]]]), ("R", [[["Assets", "old"], ["Assets", "new"]]])]
  pathExists := fun _ => true
  isFile := fun _ => true
  root := []

/-- A repository whose only staged change is a rename, so `proposed()`
reaches `tree.prune(path, ...)` with the local `path` unbound. -/
def repoOnlyRename : Repo where
  tracked := [["Assets", "old"]]
  staged := [("R", [[["Assets", "old"], ["Assets", "new"]]])]
  pathExists := fun _ => true
  isFile := fun _ => true
  root := []

/-- The spec's checker scenario `tracked = {Assets/a}`, no staged changes,
with `Assets/a` present in the working tree and no meta file. -/
def repoMissingMeta : Repo where
  tracked := [["Assets", "a"]]
  staged := []
  pathExists := fun p => p == ["Assets"] || p == ["Assets", "a"]
  isFile := fun p => p == ["Assets", "a"]
  root := []

/-- The spec's hidden-path scenario: only `Assets/.hidden/a` is tracked. -/
def repoHiddenTracked : Repo where
  tracked := [["Assets", ".hidden", "a"]]
  staged := []
  pathExists := fun _ => true
  isFile := fun _ => true
  root := []

/-- The tree obtained by adding `a/b/c`, `a/b/d`, `a/e/f` in that order. -/
def twAbc : Tree :=
  match fromIterable [["a", "b", "c"], ["a", "b", "d"], ["a", "e", "f"]] [] with
  | .ok t => t
  | .error _ => twBase

/-- The pure tree denoted by `twAbc`: root `.`, child `a` with subtrees
`b` (children `c`, `d`) and `e` (child `f`), in insertion order. -/
def ptAbc : PTree :=
  .node "." [.node "a" [.node "b" [.node "c" [], .node "d" []], .node "e" [.node "f" []]]]

/-- The condition under which the checker records `m` as a missing
companion for the enumerated path `p`: `p` exists on the backing store and
classifies as an asset path, and its companion metadata path `m` is not a
file. -/
def missCond (repo : Repo) (p m : PParts) : Prop :=
  is_asset p = true ∧ repo.pathExists p = true ∧
    meta_file_for_asset p = .ok m ∧ repo.isFile m = false

/-- The condition under which the checker records the enumerated path `p`
as an orphaned metadata file: `p` is a file, classifies as a metadata-file
path, and its derived asset path does not exist. -/
def orphCond (repo : Repo) (p : PParts) : Prop :=
  is_meta_file p = true ∧ repo.isFile p = true ∧
    ∃ a, asset_for_meta_file p = .ok a ∧ repo.pathExists a = false

/-! ### Heap infrastructure lemmas -/

theorem lookup_cons_eq {α β : Type} [BEq α] [LawfulBEq α] {k a : α} {b : β}
    {es : List (α × β)} (h : a = k) : ((k, b) :: es).lookup a = some b := by
  rw [List.lookup_cons]
  simp [h]

theorem lookup_cons_ne {α β : Type} [BEq α] [LawfulBEq α] {k a : α} {b : β}
    {es : List (α × β)} (h : a ≠ k) : ((k, b) :: es).lookup a = es.lookup a := by
  rw [List.lookup_cons]
  have hb : (a == k) = false := beq_eq_false_iff_ne.2 h
  rw [hb]

theorem lookup_filter_ne {β : Type} (l : List (Nat × β)) (i j : Nat) (h : j ≠ i) :
    (l.filter (fun kv => kv.1 != i)).lookup j = l.lookup j := by
  induction l with
  | nil => rfl
  | cons kv rest ih =>
    obtain ⟨k, v⟩ := kv
    by_cases hk : k = i
    · subst hk
      simp only [List.filter_cons, bne_self_eq_false, Bool.false_eq_true, if_false]
      rw [ih, lookup_cons_ne h]
    · have hkeep : ((k, v).1 != i) = true := by simpa using hk
      simp only [List.filter_cons, hkeep, if_true]
      by_cases hj : j = k
      · rw [lookup_cons_eq hj, lookup_cons_eq hj]
      · rw [lookup_cons_ne hj, lookup_cons_ne hj, ih]

theorem get_set_self (s : Store) (i : Nat) (d : NodeData) :
    (s.set i d).get i = some d := by
  simp only [Store.get, Store.set]
  exact lookup_cons_eq rfl

theorem get_set_ne (s : Store) {i j : Nat} (d : NodeData) (h : j ≠ i) :
    (s.set i d).get j = s.get j := by
  simp only [Store.get, Store.set]
  rw [lookup_cons_ne h, lookup_filter_ne _ _ _ h]

theorem next_set (s : Store) (i : Nat) (d : NodeData) : (s.set i d).next = s.next := rfl

theorem get_alloc_self (s : Store) (d : NodeData) :
    (s.alloc d).1.get (s.alloc d).2 = some d := by
  simp only [Store.get, Store.alloc]
  exact lookup_cons_eq rfl

theorem get_alloc_ne (s : Store) (d : NodeData) {j : Nat} (h : j ≠ s.next) :
    (s.alloc d).1.get j = s.get j := by
  simp only [Store.get, Store.alloc]
  exact lookup_cons_ne h

theorem Inv.get_next_none {s : Store} (hInv : Inv s) : s.get s.next = none := by
  cases hget : s.get s.next with
  | none => rfl
  | some d => exact absurd (hInv.keys_lt _ _ hget) (lt_irrefl _)

/-! ### Children-mapping lemmas -/

theorem childLookup_none_iff (cs : List (String × Nat)) (n : String) :
    childLookup cs n = none ↔ n ∉ cs.map Prod.fst := by
  induction cs with
  | nil => simp [childLookup]
  | cons kv rest ih =>
    obtain ⟨k, v⟩ := kv
    by_cases hk : n = k
    · subst hk
      simp only [childLookup, List.map_cons, List.mem_cons, not_or]
      rw [lookup_cons_eq rfl]
      simp
    · simp only [childLookup, List.map_cons, List.mem_cons, not_or]
      rw [lookup_cons_ne hk]
      simp only [childLookup] at ih
      rw [ih]
      simp [hk]

theorem childLookup_mem {cs : List (String × Nat)} {n : String} {c : Nat}
    (h : childLookup cs n = some c) : (n, c) ∈ cs := by
  induction cs with
  | nil => simp [childLookup] at h
  | cons kv rest ih =>
    obtain ⟨k, v⟩ := kv
    by_cases hk : n = k
    · subst hk
      rw [childLookup, lookup_cons_eq rfl] at h
      cases h
      exact List.mem_cons_self _ _
    · rw [childLookup, lookup_cons_ne hk] at h
      exact List.mem_cons_of_mem _ (ih h)

theorem childLookup_append_right {cs : List (String × Nat)} {n : String}
    (c : Nat) (h : childLookup cs n = none) :
    childLookup (cs ++ [(n, c)]) n = some c := by
  induction cs with
  | nil => exact lookup_cons_eq rfl
  | cons kv rest ih =>
    obtain ⟨k, v⟩ := kv
    by_cases hk : n = k
    · subst hk
      rw [childLookup, lookup_cons_eq rfl] at h
      cases h
    · rw [childLookup, lookup_cons_ne hk] at h
      rw [List.cons_append, childLookup, lookup_cons_ne hk]
      exact ih h

theorem childLookup_append_left {cs : List (String × Nat)} {n : String}
    {c : Nat} (suf : List (String × Nat)) (h : childLookup cs n = some c) :
    childLookup (cs ++ suf) n = some c := by
  induction cs with
  | nil => simp [childLookup] at h
  | cons kv rest ih =>
    obtain ⟨k, v⟩ := kv
    by_cases hk : n = k
    · subst hk
      rw [childLookup, lookup_cons_eq rfl] at h
      rw [List.cons_append, childLookup, lookup_cons_eq rfl]
      exact h
    · rw [childLookup, lookup_cons_ne hk] at h
      rw [List.cons_append, childLookup, lookup_cons_ne hk]
      exact ih h

theorem childPop_keys (cs : List (String × Nat)) (n : String) :
    (childPop cs n).map Prod.fst = (cs.map Prod.fst).filter (fun k => k != n) := by
  induction cs with
  | nil => rfl
  | cons kv rest ih =>
    obtain ⟨k, v⟩ := kv
    by_cases hk : k = n
    · subst hk
      simp only [childPop, List.filter_cons, bne_self_eq_false, Bool.false_eq_true, if_false,
        List.map_cons]
      simpa [childPop] using ih
    · have hkeep : (k != n) = true := by simpa using hk
      simp only [childPop, List.filter_cons, hkeep, if_true, List.map_cons]
      simpa [childPop] using ih

theorem childPop_sub {cs : List (String × Nat)} {n : String} :
    ∀ kv ∈ childPop cs n, kv ∈ cs := fun _ h => List.mem_of_mem_filter h

theorem childPop_lookup_ne (cs : List (String × Nat)) {n m : String}
    (h : m ≠ n) : childLookup (childPop cs n) m = childLookup cs m := by
  induction cs with
  | nil => rfl
  | cons kv rest ih =>
    obtain ⟨k, v⟩ := kv
    by_cases hk : k = n
    · subst hk
      simp only [childPop, childLookup, List.filter_cons, bne_self_eq_false,
        Bool.false_eq_true, if_false] at *
      rw [lookup_cons_ne h, ← ih]
    · have hkeep : (k != n) = true := by simpa using hk
      simp only [childPop, childLookup, List.filter_cons, hkeep, if_true] at *
      by_cases hm : m = k
      · rw [lookup_cons_eq hm, lookup_cons_eq hm]
      · rw [lookup_cons_ne hm, lookup_cons_ne hm, ih]

theorem childPop_lookup_self (cs : List (String × Nat)) (n : String) :
    childLookup (childPop cs n) n = none := by
  rw [childLookup_none_iff, childPop_keys]
  intro hmem
  have := List.of_mem_filter hmem
  simp at this

theorem childPop_length {cs : List (String × Nat)} {n : String}
    (hnd : (cs.map Prod.fst).Nodup) (hmem : n ∈ cs.map Prod.fst) :
    (childPop cs n).length + 1 = cs.length := by
  induction cs with
  | nil => simp at hmem
  | cons kv rest ih =>
    obtain ⟨k, v⟩ := kv
    simp only [List.map_cons, List.nodup_cons] at hnd
    by_cases hk : k = n
    · subst hk
      simp only [childPop, List.filter_cons, bne_self_eq_false, Bool.false_eq_true, if_false]
      have : childPop rest k = rest := by
        unfold childPop
        apply List.filter_eq_self.2
        intro kv hkv
        have : kv.1 ∈ rest.map Prod.fst := List.mem_map_of_mem _ hkv
        have hne : kv.1 ≠ k := fun he => hnd.1 (he ▸ this)
        simpa using hne
      simp only [childPop] at this
      rw [this, List.length_cons]
    · have hkeep : (k != n) = true := by simpa using hk
      simp only [List.map_cons, List.mem_cons] at hmem
      rcases hmem with hmem | hmem
      · exact absurd hmem.symm hk
      · simp only [childPop, List.filter_cons, hkeep, if_true, List.length_cons]
        have := ih hnd.2 hmem
        simp only [childPop] at this
        omega

/-! ### Characterizations of the node-level operations -/

theorem addChild_spec {s : Store} {i : Nat} {nm : String} {s1 : Store} {c : Nat}
    (hInv : Inv s) (h : addChild s i nm = .ok (s1, c)) :
    ∃ d, s.get i = some d ∧ c = s.next ∧ i ≠ c ∧ s1.next = s.next + 1 ∧
      s1.get i = some ⟨d.name, d.parent, d.children ++ [(nm, c)]⟩ ∧
      s1.get c = some ⟨nm, some i, []⟩ ∧
      (∀ j, j ≠ i → j ≠ c → s1.get j = s.get j) ∧
      childLookup d.children nm = none ∧ nm ≠ "" ∧ (parseParts nm).length ≤ 1 := by
  unfold addChild at h
  by_cases h1 : (parseParts nm).length > 1
  · simp [h1] at h
  · simp only [h1, if_false] at h
    cases hget : s.get i with
    | none => rw [hget] at h; cases h
    | some d =>
      rw [hget] at h
      by_cases h2 : (childLookup d.children nm).isSome
      · simp [h2] at h
      · simp only [h2, Bool.false_eq_true, if_false] at h
        by_cases h3 : nm = ""
        · simp [h3] at h
        · simp only [h3, if_false, Store.alloc, Except.ok.injEq, Prod.mk.injEq] at h
          obtain ⟨hs1, hc⟩ := h
          have hilt : i < s.next := hInv.keys_lt _ _ hget
          have hic : i ≠ c := by omega
          have hlen : (parseParts nm).length ≤ 1 := by omega
          have hnone : childLookup d.children nm = none := by
            cases hcl : childLookup d.children nm with
            | none => rfl
            | some x => rw [hcl] at h2; simp at h2
          subst hs1
          rw [← hc]
          refine ⟨d, rfl, rfl, by omega, rfl, ?_, ?_, ?_, hnone, h3, hlen⟩
          · exact get_set_self _ _ _
          · have hne : s.next ≠ i := by omega
            rw [get_set_ne _ _ hne]
            exact get_alloc_self s ⟨nm, some i, []⟩
          · intro j hji hjc
            rw [get_set_ne _ _ hji]
            exact get_alloc_ne s _ hjc

theorem removeChild_spec {s : Store} {i : Nat} {nm : String} {s1 : Store} {r : Nat}
    (h : removeChild s i nm = .ok (s1, r)) :
    ∃ d, s.get i = some d ∧ r = i ∧ s1.next = s.next ∧
      s1.get i = some ⟨d.name, d.parent, childPop d.children nm⟩ ∧
      (∀ j, j ≠ i → s1.get j = s.get j) ∧
      (childLookup d.children nm).isSome := by
  unfold removeChild at h
  cases hget : s.get i with
  | none => rw [hget] at h; cases h
  | some d =>
    rw [hget] at h
    by_cases h2 : (childLookup d.children nm).isSome
    · simp only [h2, if_true, Except.ok.injEq, Prod.mk.injEq] at h
      obtain ⟨hs1, hr⟩ := h
      refine ⟨d, rfl, hr.symm, ?_, ?_, ?_, h2⟩
      · rw [← hs1]; rfl
      · rw [← hs1]; exact get_set_self s i _
      · intro j hji; rw [← hs1]; exact get_set_ne s _ hji
    · simp [h2] at h

theorem clearNode_spec {s : Store} {i : Nat} {s1 : Store}
    (h : clearNode s i = .ok s1) :
    ∃ d, s.get i = some d ∧ s1.next = s.next ∧
      s1.get i = some ⟨d.name, d.parent, []⟩ ∧
      (∀ j, j ≠ i → s1.get j = s.get j) := by
  unfold clearNode at h
  cases hget : s.get i with
  | none => rw [hget] at h; cases h
  | some d =>
    rw [hget] at h
    cases h
    exact ⟨d, rfl, rfl, get_set_self s i _, fun j hji => get_set_ne s _ hji⟩

/-! ### Invariant preservation -/

theorem addChild_inv {s : Store} {i : Nat} {nm : String} {s1 : Store} {c : Nat}
    (hInv : Inv s) (h : addChild s i nm = .ok (s1, c)) : Inv s1 := by
  obtain ⟨d, hget, hc, hic, hnext, hgi, hgc, hother, hnone, -, -⟩ := addChild_spec hInv h
  have hilt : i < s.next := hInv.keys_lt _ _ hget
  -- how `s1.get j` relates to `s.get j`
  have hcases : ∀ j dj, s1.get j = some dj →
      (j = i ∧ dj = ⟨d.name, d.parent, d.children ++ [(nm, c)]⟩) ∨
      (j = c ∧ dj = ⟨nm, some i, []⟩) ∨ (j ≠ i ∧ j ≠ c ∧ s.get j = some dj) := by
    intro j dj hj
    by_cases hji : j = i
    · subst hji; rw [hgi] at hj; exact Or.inl ⟨rfl, (Option.some.injEq _ _ ▸ hj).symm⟩
    · by_cases hjc : j = c
      · subst hjc; rw [hgc] at hj
        exact Or.inr (Or.inl ⟨rfl, (Option.some.injEq _ _ ▸ hj).symm⟩)
      · rw [hother j hji hjc] at hj; exact Or.inr (Or.inr ⟨hji, hjc, hj⟩)
  have hpres : ∀ j dj, s.get j = some dj → ∃ dj', s1.get j = some dj' ∧
      dj'.name = dj.name ∧ dj'.parent = dj.parent := by
    intro j dj hj
    by_cases hji : j = i
    · subst hji
      rw [hget] at hj
      cases hj
      exact ⟨_, hgi, rfl, rfl⟩
    · by_cases hjc : j = c
      · subst hjc
        rw [hc] at hj
        rw [hInv.get_next_none] at hj
        cases hj
      · exact ⟨dj, (hother j hji hjc).trans hj, rfl, rfl⟩
  constructor
  · intro j dj hj
    rcases hcases j dj hj with ⟨hj', -⟩ | ⟨hj', -⟩ | ⟨-, -, hj'⟩
    · subst hj'; omega
    · subst hj'; omega
    · have := hInv.keys_lt _ _ hj'; omega
  · intro j dj p hj hp
    rcases hcases j dj hj with ⟨hj', hd⟩ | ⟨hj', hd⟩ | ⟨-, -, hj'⟩
    · subst hj' hd
      exact hInv.parent_lt _ _ _ hget hp
    · subst hj' hd
      cases hp
      omega
    · exact hInv.parent_lt _ _ _ hj' hp
  · intro j dj p hj hp
    rcases hcases j dj hj with ⟨hj', hd⟩ | ⟨hj', hd⟩ | ⟨-, -, hj'⟩
    · subst hj' hd
      obtain ⟨pd, hpd⟩ := hInv.parent_mem _ _ _ hget hp
      obtain ⟨pd', hpd', -⟩ := hpres _ _ hpd
      exact ⟨pd', hpd'⟩
    · subst hj' hd
      cases hp
      exact ⟨_, hgi⟩
    · obtain ⟨pd, hpd⟩ := hInv.parent_mem _ _ _ hj' hp
      obtain ⟨pd', hpd', -⟩ := hpres _ _ hpd
      exact ⟨pd', hpd'⟩
  · intro j dj n c' hj hmem
    rcases hcases j dj hj with ⟨hj', hd⟩ | ⟨hj', hd⟩ | ⟨hji, hjc, hj'⟩
    · subst hj' hd
      simp only [List.mem_append, List.mem_singleton] at hmem
      rcases hmem with hmem | hmem
      · obtain ⟨cd, hcd, hcdn, hcdp⟩ := hInv.child_link _ _ _ _ hget hmem
        obtain ⟨cd', hcd', h1, h2⟩ := hpres _ _ hcd
        exact ⟨cd', hcd', h1.trans hcdn, h2.trans hcdp⟩
      · cases hmem
        exact ⟨_, hgc, rfl, rfl⟩
    · subst hj' hd
      simp at hmem
    · obtain ⟨cd, hcd, hcdn, hcdp⟩ := hInv.child_link _ _ _ _ hj' hmem
      obtain ⟨cd', hcd', h1, h2⟩ := hpres _ _ hcd
      exact ⟨cd', hcd', h1.trans hcdn, h2.trans hcdp⟩
  · intro j dj hj
    rcases hcases j dj hj with ⟨hj', hd⟩ | ⟨hj', hd⟩ | ⟨-, -, hj'⟩
    · subst hj' hd
      have hnd := hInv.child_keys_nodup _ _ hget
      have hnin : nm ∉ d.children.map Prod.fst := (childLookup_none_iff _ _).1 hnone
      simp only [List.map_append, List.map_cons, List.map_nil]
      rw [List.nodup_append]
      refine ⟨hnd, List.nodup_singleton _, ?_⟩
      intro a ha hb
      simp only [List.mem_singleton] at hb
      subst hb
      exact hnin ha
    · subst hj' hd
      simp
    · exact hInv.child_keys_nodup _ _ hj'

theorem removeChild_inv {s : Store} {i : Nat} {nm : String} {s1 : Store} {r : Nat}
    (hInv : Inv s) (h : removeChild s i nm = .ok (s1, r)) : Inv s1 := by
  obtain ⟨d, hget, -, hnext, hgi, hother, -⟩ := removeChild_spec h
  have hcases : ∀ j dj, s1.get j = some dj →
      (j = i ∧ dj = ⟨d.name, d.parent, childPop d.children nm⟩) ∨
      (j ≠ i ∧ s.get j = some dj) := by
    intro j dj hj
    by_cases hji : j = i
    · subst hji; rw [hgi] at hj; exact Or.inl ⟨rfl, (Option.some.injEq _ _ ▸ hj).symm⟩
    · rw [hother j hji] at hj; exact Or.inr ⟨hji, hj⟩
  have hpres : ∀ j dj, s.get j = some dj → ∃ dj', s1.get j = some dj' ∧
      dj'.name = dj.name ∧ dj'.parent = dj.parent := by
    intro j dj hj
    by_cases hji : j = i
    · subst hji
      rw [hget] at hj
      cases hj
      exact ⟨_, hgi, rfl, rfl⟩
    · exact ⟨dj, (hother j hji).trans hj, rfl, rfl⟩
  constructor
  · intro j dj hj
    rw [hnext]
    rcases hcases j dj hj with ⟨hj', -⟩ | ⟨-, hj'⟩
    · subst hj'; exact hInv.keys_lt _ _ hget
    · exact hInv.keys_lt _ _ hj'
  · intro j dj p hj hp
    rcases hcases j dj hj with ⟨hj', hd⟩ | ⟨-, hj'⟩
    · subst hj' hd
      exact hInv.parent_lt _ _ _ hget hp
    · exact hInv.parent_lt _ _ _ hj' hp
  · intro j dj p hj hp
    rcases hcases j dj hj with ⟨hj', hd⟩ | ⟨-, hj'⟩
    · subst hj' hd
      obtain ⟨pd, hpd⟩ := hInv.parent_mem _ _ _ hget hp
      obtain ⟨pd', hpd', -⟩ := hpres _ _ hpd
      exact ⟨pd', hpd'⟩
    · obtain ⟨pd, hpd⟩ := hInv.parent_mem _ _ _ hj' hp
      obtain ⟨pd', hpd', -⟩ := hpres _ _ hpd
      exact ⟨pd', hpd'⟩
  · intro j dj n c' hj hmem
    rcases hcases j dj hj with ⟨hj', hd⟩ | ⟨-, hj'⟩
    · subst hj' hd
      have hmem' : (n, c') ∈ d.children := childPop_sub _ hmem
      obtain ⟨cd, hcd, hcdn, hcdp⟩ := hInv.child_link _ _ _ _ hget hmem'
      obtain ⟨cd', hcd', h1, h2⟩ := hpres _ _ hcd
      exact ⟨cd', hcd', h1.trans hcdn, h2.trans hcdp⟩
    · obtain ⟨cd, hcd, hcdn, hcdp⟩ := hInv.child_link _ _ _ _ hj' hmem
      obtain ⟨cd', hcd', h1, h2⟩ := hpres _ _ hcd
      exact ⟨cd', hcd', h1.trans hcdn, h2.trans hcdp⟩
  · intro j dj hj
    rcases hcases j dj hj with ⟨hj', hd⟩ | ⟨-, hj'⟩
    · subst hj' hd
      have hnd := hInv.child_keys_nodup _ _ hget
      rw [childPop_keys]
      exact hnd.filter _
    · exact hInv.child_keys_nodup _ _ hj'

theorem clearNode_inv {s : Store} {i : Nat} {s1 : Store}
    (hInv : Inv s) (h : clearNode s i = .ok s1) : Inv s1 := by
  obtain ⟨d, hget, hnext, hgi, hother⟩ := clearNode_spec h
  have hcases : ∀ j dj, s1.get j = some dj →
      (j = i ∧ dj = ⟨d.name, d.parent, []⟩) ∨ (j ≠ i ∧ s.get j = some dj) := by
    intro j dj hj
    by_cases hji : j = i
    · subst hji; rw [hgi] at hj; exact Or.inl ⟨rfl, (Option.some.injEq _ _ ▸ hj).symm⟩
    · rw [hother j hji] at hj; exact Or.inr ⟨hji, hj⟩
  have hpres : ∀ j dj, s.get j = some dj → ∃ dj', s1.get j = some dj' ∧
      dj'.name = dj.name ∧ dj'.parent = dj.parent := by
    intro j dj hj
    by_cases hji : j = i
    · subst hji
      rw [hget] at hj
      cases hj
      exact ⟨_, hgi, rfl, rfl⟩
    · exact ⟨dj, (hother j hji).trans hj, rfl, rfl⟩
  constructor
  · intro j dj hj
    rw [hnext]
    rcases hcases j dj hj with ⟨hj', -⟩ | ⟨-, hj'⟩
    · subst hj'; exact hInv.keys_lt _ _ hget
    · exact hInv.keys_lt _ _ hj'
  · intro j dj p hj hp
    rcases hcases j dj hj with ⟨hj', hd⟩ | ⟨-, hj'⟩
    · subst hj' hd
      exact hInv.parent_lt _ _ _ hget hp
    · exact hInv.parent_lt _ _ _ hj' hp
  · intro j dj p hj hp
    rcases hcases j dj hj with ⟨hj', hd⟩ | ⟨-, hj'⟩
    · subst hj' hd
      obtain ⟨pd, hpd⟩ := hInv.parent_mem _ _ _ hget hp
      obtain ⟨pd', hpd', -⟩ := hpres _ _ hpd
      exact ⟨pd', hpd'⟩
    · obtain ⟨pd, hpd⟩ := hInv.parent_mem _ _ _ hj' hp
      obtain ⟨pd', hpd', -⟩ := hpres _ _ hpd
      exact ⟨pd', hpd'⟩
  · intro j dj n c' hj hmem
    rcases hcases j dj hj with ⟨hj', hd⟩ | ⟨-, hj'⟩
    · subst hj' hd
      simp at hmem
    · obtain ⟨cd, hcd, hcdn, hcdp⟩ := hInv.child_link _ _ _ _ hj' hmem
      obtain ⟨cd', hcd', h1, h2⟩ := hpres _ _ hcd
      exact ⟨cd', hcd', h1.trans hcdn, h2.trans hcdp⟩
  · intro j dj hj
    rcases hcases j dj hj with ⟨hj', hd⟩ | ⟨-, hj'⟩
    · subst hj' hd
      simp
    · exact hInv.child_keys_nodup _ _ hj'

theorem mkTree_get (r : PParts) (j : Nat) :
    (mkTree r).store.get j = if j = 0 then some ⟨".", none, []⟩ else none := by
  by_cases hj : j = 0
  · subst hj
    simp only [mkTree, Store.alloc, Store.get, if_true]
    exact lookup_cons_eq rfl
  · simp only [mkTree, Store.alloc, Store.get, hj, if_false]
    exact lookup_cons_ne hj

theorem mkTree_inv (r : PParts) : Inv (mkTree r).store := by
  have hget := mkTree_get r
  constructor
  · intro j dj hj
    rw [hget] at hj
    by_cases h : j = 0
    · subst h
      show 0 < (mkTree r).store.next
      exact Nat.zero_lt_one
    · simp [h] at hj
  · intro j dj p hj hp
    rw [hget] at hj
    by_cases h : j = 0
    · subst h
      simp only [if_true] at hj
      cases hj
      cases hp
    · simp [h] at hj
  · intro j dj p hj hp
    rw [hget] at hj
    by_cases h : j = 0
    · subst h
      simp only [if_true] at hj
      cases hj
      cases hp
    · simp [h] at hj
  · intro j dj n c hj hmem
    rw [hget] at hj
    by_cases h : j = 0
    · subst h
      simp only [if_true] at hj
      cases hj
      simp at hmem
    · simp [h] at hj
  · intro j dj hj
    rw [hget] at hj
    by_cases h : j = 0
    · subst h
      simp only [if_true] at hj
      cases hj
      simp
    · simp [h] at hj

/-! ### Walking and adding -/

theorem descendantFrom_nil (s : Store) (r : Nat) : descendantFrom s r [] = .ok r := rfl

theorem descendantFrom_cons (s : Store) (r : Nat) (part : String) (rest : PParts) :
    descendantFrom s r (part :: rest) =
      match s.get r with
      | none => .error .internal
      | some d =>
        match childLookup d.children part with
        | some c => descendantFrom s c rest
        | none => .error .notFound := by
  rw [descendantFrom]

theorem addLoop_nil (t : Tree) (cur : Nat) : addLoop t cur [] = .ok (t, cur) := rfl

theorem addLoop_cons (t : Tree) (cur : Nat) (part : String) (rest : PParts) :
    addLoop t cur (part :: rest) =
      match t.store.get cur with
      | none => .error .internal
      | some d =>
        match childLookup d.children part with
        | some c => addLoop t c rest
        | none =>
          match addChild t.store cur part with
          | .error e => .error e
          | .ok (s1, c) => addLoop { t with store := s1 } c rest := by
  rw [addLoop]

theorem descendantFrom_append (s : Store) (q : PParts) :
    ∀ (p : PParts) (r : Nat),
      descendantFrom s r (p ++ q) =
        match descendantFrom s r p with
        | .ok m => descendantFrom s m q
        | .error e => .error e := by
  intro p
  induction p with
  | nil => intro r; rfl
  | cons part rest ih =>
    intro r
    rw [List.cons_append, descendantFrom_cons, descendantFrom_cons]
    cases s.get r with
    | none => rfl
    | some d =>
      dsimp only
      cases childLookup d.children part with
      | none => rfl
      | some c =>
        dsimp only
        exact ih c

theorem addLoop_of_resolved {t : Tree} {p : PParts} {cur : Nat} {j : Nat}
    (h : descendantFrom t.store cur p = .ok j) : addLoop t cur p = .ok (t, j) := by
  induction p generalizing cur with
  | nil =>
    rw [descendantFrom_nil] at h
    cases h
    rfl
  | cons part rest ih =>
    rw [descendantFrom_cons] at h
    rw [addLoop_cons]
    cases hget : t.store.get cur with
    | none => rw [hget] at h; cases h
    | some d =>
      rw [hget] at h
      dsimp only at h
      dsimp only
      cases hcl : childLookup d.children part with
      | none => rw [hcl] at h; cases h
      | some c =>
        rw [hcl] at h
        dsimp only at h ⊢
        exact ih h

theorem addLoop_root {t : Tree} {p : PParts} {cur : Nat} {t1 : Tree} {j : Nat}
    (h : addLoop t cur p = .ok (t1, j)) :
    t1.root = t.root ∧ t1.rootpath = t.rootpath := by
  induction p generalizing t cur with
  | nil =>
    rw [addLoop_nil] at h
    cases h
    exact ⟨rfl, rfl⟩
  | cons part rest ih =>
    rw [addLoop_cons] at h
    cases hget : t.store.get cur with
    | none => rw [hget] at h; cases h
    | some d =>
      rw [hget] at h
      dsimp only at h
      cases hcl : childLookup d.children part with
      | some c =>
        rw [hcl] at h
        dsimp only at h
        exact ih h
      | none =>
        rw [hcl] at h
        dsimp only at h
        cases hac : addChild t.store cur part with
        | error e => rw [hac] at h; cases h
        | ok r =>
          obtain ⟨s1, c⟩ := r
          rw [hac] at h
          dsimp only at h
          exact ih (t := { t with store := s1 }) h

theorem addLoop_inv {t : Tree} {p : PParts} {cur : Nat} {t1 : Tree} {j : Nat}
    (hInv : Inv t.store) (h : addLoop t cur p = .ok (t1, j)) : Inv t1.store := by
  induction p generalizing t cur with
  | nil =>
    rw [addLoop_nil] at h
    cases h
    exact hInv
  | cons part rest ih =>
    rw [addLoop_cons] at h
    cases hget : t.store.get cur with
    | none => rw [hget] at h; cases h
    | some d =>
      rw [hget] at h
      dsimp only at h
      cases hcl : childLookup d.children part with
      | some c =>
        rw [hcl] at h
        dsimp only at h
        exact ih hInv h
      | none =>
        rw [hcl] at h
        dsimp only at h
        cases hac : addChild t.store cur part with
        | error e => rw [hac] at h; cases h
        | ok r =>
          obtain ⟨s1, c⟩ := r
          rw [hac] at h
          dsimp only at h
          exact ih (t := { t with store := s1 }) (addChild_inv hInv hac) h

theorem addLoop_get_lt {t : Tree} {p : PParts} {cur : Nat} {t1 : Tree} {j : Nat}
    (hInv : Inv t.store) (h : addLoop t cur p = .ok (t1, j)) :
    ∀ k, k < cur → t1.store.get k = t.store.get k := by
  induction p generalizing t cur with
  | nil =>
    rw [addLoop_nil] at h
    cases h
    intro k _
    rfl
  | cons part rest ih =>
    rw [addLoop_cons] at h
    cases hget : t.store.get cur with
    | none => rw [hget] at h; cases h
    | some d =>
      rw [hget] at h
      dsimp only at h
      cases hcl : childLookup d.children part with
      | some c =>
        rw [hcl] at h
        dsimp only at h
        intro k hk
        have hcc : cur < c := by
          obtain ⟨cd, hcd, -, hcdp⟩ := hInv.child_link _ _ _ _ hget (childLookup_mem hcl)
          exact hInv.parent_lt _ _ _ hcd hcdp
        exact ih hInv h k (hk.trans hcc)
      | none =>
        rw [hcl] at h
        dsimp only at h
        cases hac : addChild t.store cur part with
        | error e => rw [hac] at h; cases h
        | ok r =>
          obtain ⟨s1, c⟩ := r
          rw [hac] at h
          dsimp only at h
          obtain ⟨d2, hget2, hc, hcur_c, hnext, -, -, hother, -, -, -⟩ :=
            addChild_spec hInv hac
          intro k hk
          have hcurnext : cur < t.store.next := hInv.keys_lt _ _ hget
          have hkc : k < c := by omega
          have h1 := ih (t := { t with store := s1 }) (addChild_inv hInv hac) h k hkc
          rw [h1]
          exact hother k (by omega) (by omega)

theorem addLoop_resolves {t : Tree} {p : PParts} {cur : Nat} {t1 : Tree} {j : Nat}
    (hInv : Inv t.store) (h : addLoop t cur p = .ok (t1, j)) :
    descendantFrom t1.store cur p = .ok j := by
  induction p generalizing t cur with
  | nil =>
    rw [addLoop_nil] at h
    cases h
    rfl
  | cons part rest ih =>
    rw [addLoop_cons] at h
    rw [descendantFrom_cons]
    cases hget : t.store.get cur with
    | none => rw [hget] at h; cases h
    | some d =>
      rw [hget] at h
      dsimp only at h
      cases hcl : childLookup d.children part with
      | some c =>
        rw [hcl] at h
        dsimp only at h
        have hcc : cur < c := by
          obtain ⟨cd, hcd, -, hcdp⟩ := hInv.child_link _ _ _ _ hget (childLookup_mem hcl)
          exact hInv.parent_lt _ _ _ hcd hcdp
        have hcur1 : t1.store.get cur = some d := by
          rw [addLoop_get_lt hInv h cur hcc, hget]
        rw [hcur1]
        dsimp only
        rw [hcl]
        exact ih hInv h
      | none =>
        rw [hcl] at h
        dsimp only at h
        cases hac : addChild t.store cur part with
        | error e => rw [hac] at h; cases h
        | ok r =>
          obtain ⟨s1, c⟩ := r
          rw [hac] at h
          dsimp only at h
          obtain ⟨d2, hget2, hc, hcur_c, hnext, hgi, hgc, hother, hnone, -, -⟩ :=
            addChild_spec hInv hac
          rw [hget] at hget2
          injection hget2 with hd2
          subst hd2
          have hInv1 : Inv s1 := addChild_inv hInv hac
          have hcurlt : cur < c := by
            have := hInv.keys_lt _ _ hget
            omega
          have hcur1 : t1.store.get cur =
              some ⟨d.name, d.parent, d.children ++ [(part, c)]⟩ := by
            have h1 := addLoop_get_lt (t := { t with store := s1 }) hInv1 h cur hcurlt
            rw [h1]
            exact hgi
          rw [hcur1]
          dsimp only
          rw [childLookup_append_right _ hnone]
          exact ih (t := { t with store := s1 }) hInv1 h

/-- Invariant preservation for `PathTree.add`. -/
theorem add_inv {t : Tree} {p : PParts} {t1 : Tree} {j : Nat}
    (hInv : Inv t.store) (h : t.add p = .ok (t1, j)) : Inv t1.store := by
  unfold Tree.add at h
  cases hcp : checkPath p with
  | error e => rw [hcp] at h; cases h
  | ok u => rw [hcp] at h; exact addLoop_inv hInv h

theorem add_root {t : Tree} {p : PParts} {t1 : Tree} {j : Nat}
    (h : t.add p = .ok (t1, j)) : t1.root = t.root ∧ t1.rootpath = t.rootpath := by
  unfold Tree.add at h
  cases hcp : checkPath p with
  | error e => rw [hcp] at h; cases h
  | ok u => rw [hcp] at h; exact addLoop_root h

/-- C4: re-adding a path already in the tree returns the identical node
object and leaves the tree completely unchanged. -/
theorem add_idempotent (t : Tree) (p : PParts) (t1 : Tree) (i : Nat)
    (hInv : Inv t.store) (h : t.add p = .ok (t1, i)) : t1.add p = .ok (t1, i) := by
  unfold Tree.add at h ⊢
  cases hcp : checkPath p with
  | error e => rw [hcp] at h; cases h
  | ok u =>
    rw [hcp] at h
    dsimp only at h ⊢
    have hres : descendantFrom t1.store t1.root p = .ok i := by
      rw [(addLoop_root h).1]
      exact addLoop_resolves hInv h
    exact addLoop_of_resolved hres

/-! ### Character-level lemmas for the suffix helpers -/

theorem chars_mk (l : List Char) : chars ⟨l⟩ = l := rfl

theorem mk_chars (s : String) : (⟨chars s⟩ : String) = s := rfl

theorem strApp_chars (a b : String) : chars (strApp a b) = chars a ++ chars b := rfl

theorem chars_eq_nil {s : String} : chars s = [] ↔ s = "" := by
  rw [String.ext_iff]
  rfl

theorem strApp_left_nil (b : String) : strApp "" b = b := by
  cases b with
  | mk l => rfl

theorem strApp_right_nil (a : String) : strApp a "" = a := by
  cases a with
  | mk l =>
    show (⟨l ++ []⟩ : String) = ⟨l⟩
    rw [List.append_nil]

theorem rfindChar_append {l2 : List Char} {c : Char} {j : Nat}
    (h : rfindChar l2 c = some j) (l1 : List Char) :
    rfindChar (l1 ++ l2) c = some (l1.length + j) := by
  induction l1 with
  | nil => simpa using h
  | cons x xs ih =>
    rw [List.cons_append, rfindChar, ih]
    simp only [List.length_cons]
    congr 1
    omega

theorem rfindChar_drop {cs : List Char} {c : Char} {i : Nat}
    (h : rfindChar cs c = some i) : ∃ tl, cs.drop i = c :: tl := by
  induction cs generalizing i with
  | nil => cases h
  | cons x xs ih =>
    rw [rfindChar] at h
    cases hr : rfindChar xs c with
    | some j =>
      rw [hr] at h
      cases h
      exact ih hr
    | none =>
      rw [hr] at h
      by_cases hx : x = c
      · rw [if_pos hx] at h
        cases h
        exact ⟨xs, by rw [List.drop_zero, hx]⟩
      · rw [if_neg hx] at h
        cases h

theorem rfindChar_lt {cs : List Char} {c : Char} {i : Nat}
    (h : rfindChar cs c = some i) : i < cs.length := by
  obtain ⟨tl, htl⟩ := rfindChar_drop h
  by_contra hge
  rw [List.drop_eq_nil_of_le (Nat.le_of_not_lt hge)] at htl
  cases htl

theorem sfxChars_cases (cs : List Char) :
    sfxChars cs = [] ∨
      ∃ i, rfindChar cs '.' = some i ∧ 0 < i ∧ i < cs.length - 1 ∧
        sfxChars cs = cs.drop i := by
  unfold sfxChars
  cases hr : rfindChar cs '.' with
  | none => exact Or.inl rfl
  | some i =>
    dsimp only
    by_cases hcond : 0 < i ∧ i < cs.length - 1
    · rw [if_pos hcond]
      exact Or.inr ⟨i, rfl, hcond.1, hcond.2, rfl⟩
    · rw [if_neg hcond]
      exact Or.inl rfl

theorem sfxChars_subset (cs : List Char) : ∀ a ∈ sfxChars cs, a ∈ cs := by
  rcases sfxChars_cases cs with h | ⟨i, -, -, -, h⟩ <;> rw [h]
  · intro a ha
    cases ha
  · intro a ha
    exact List.drop_subset _ _ ha

theorem sfxChars_starts_dot {cs : List Char} (h : sfxChars cs ≠ []) :
    ∃ tl, sfxChars cs = '.' :: tl := by
  rcases sfxChars_cases cs with hc | ⟨i, hr, -, -, hc⟩
  · exact absurd hc h
  · rw [hc]
    exact rfindChar_drop hr

theorem nameOf_concat {l : List String} {x : String} (hx : x ≠ "/") :
    nameOf (l ++ [x]) = x := by
  unfold nameOf
  have h1 : ¬ (l ++ [x] = [] ∨ l ++ [x] = ["/"]) := by
    rintro (h | h)
    · exact absurd h (by simp)
    · rcases l with - | ⟨y, ys⟩
      · rw [List.nil_append] at h
        injection h with h1 h2
        exact hx h1
      · rw [List.cons_append] at h
        injection h with h1 h2
        exact absurd h2 (by simp)
  rw [if_neg h1]
  rw [List.getLast?_concat]
  rfl

theorem dropLast_name_eq {p : PParts} (hname : nameOf p ≠ "") :
    p.dropLast ++ [nameOf p] = p := by
  have hp : p ≠ [] := by
    intro he
    subst he
    exact hname rfl
  have hps : p ≠ ["/"] := by
    intro he
    subst he
    exact hname rfl
  unfold nameOf
  rw [if_neg (by simp [hp, hps])]
  rw [List.getLast?_eq_getLast _ hp]
  simp only [Option.getD_some]
  exact List.dropLast_append_getLast hp

/-! ### The companion-suffix helpers (C6) -/

theorem contains_eq_false {l : List Char} {c : Char} (h : c ∉ l) :
    l.contains c = false := by
  induction l with
  | nil => rfl
  | cons x xs ih =>
    rw [List.contains_cons]
    simp only [List.mem_cons, not_or] at h
    rw [ih h.2]
    have hb : (c == x) = false := beq_eq_false_iff_ne.2 h.1
    rw [hb]
    rfl

theorem strStarts_dot {s : String} {tl : List Char} (h : chars s = '.' :: tl) :
    strStarts s "." = true := by
  unfold strStarts
  rw [h]
  simp [List.isPrefixOf]

theorem length_meta_chars : (chars ".meta").length = 5 := rfl

theorem rfind_meta_zero : rfindChar (chars ".meta") '.' = some 0 := by decide

theorem name_len_pos {name : String} (hname : name ≠ "") : 0 < (chars name).length := by
  cases hc : chars name with
  | nil => exact absurd (chars_eq_nil.1 hc) hname
  | cons x xs => simp

theorem sfxChars_append_meta {name : String} (hname : name ≠ "") :
    sfxChars (chars name ++ chars ".meta") = chars ".meta" := by
  have hr := rfindChar_append rfind_meta_zero (chars name)
  unfold sfxChars
  rw [hr]
  dsimp only
  have hpos := name_len_pos hname
  have hcond : 0 < (chars name).length + 0 ∧
      (chars name).length + 0 < (chars name ++ chars ".meta").length - 1 := by
    rw [List.length_append, length_meta_chars]
    omega
  rw [if_pos hcond]
  rw [show (chars name).length + 0 = (chars name).length from Nat.add_zero _]
  exact List.drop_left _ _

theorem strApp_meta_starts_dot (x : String) :
    ∃ tl, chars (strApp (⟨sfxChars (chars x)⟩ : String) ".meta") = '.' :: tl := by
  rw [strApp_chars, chars_mk]
  by_cases hnil : sfxChars (chars x) = []
  · rw [hnil, List.nil_append]
    exact ⟨['m', 'e', 't', 'a'], rfl⟩
  · obtain ⟨tl, htl⟩ := sfxChars_starts_dot hnil
    rw [htl, List.cons_append]
    exact ⟨tl ++ chars ".meta", rfl⟩

theorem strApp_meta_ne_dot (x : String) :
    strApp (⟨sfxChars (chars x)⟩ : String) ".meta" ≠ "." := by
  intro he
  have hl := congrArg (fun s => (chars s).length) he
  simp only [strApp_chars, chars_mk, List.length_append, length_meta_chars] at hl
  have : (chars ".").length = 1 := rfl
  omega

theorem newNameFor_meta {name : String} :
    newNameFor name (strApp (⟨sfxChars (chars name)⟩ : String) ".meta") =
      strApp name ".meta" := by
  unfold newNameFor
  by_cases hold : (⟨sfxChars (chars name)⟩ : String) = ""
  · rw [if_pos hold, hold, strApp_left_nil]
  · rw [if_neg hold]
    have hne : sfxChars (chars name) ≠ [] := by
      intro he
      exact hold (by rw [he])
    rcases sfxChars_cases (chars name) with hc | ⟨i, hr, hi0, hilen, hc⟩
    · exact absurd hc hne
    · have hlt : i < (chars name).length := rfindChar_lt hr
      have hidx : (chars name).length - (sfxChars (chars name)).length = i := by
        rw [hc, List.length_drop]
        omega
      rw [hidx]
      apply String.ext
      show chars (strApp (strTake name i) (strApp ⟨sfxChars (chars name)⟩ ".meta")) =
        chars (strApp name ".meta")
      rw [strApp_chars, strApp_chars, strApp_chars, chars_mk]
      show (chars name).take i ++ (sfxChars (chars name) ++ chars ".meta") =
        chars name ++ chars ".meta"
      rw [hc, ← List.append_assoc, List.take_append_drop]

/-- C6 (claim): for a relative path with a non-empty final component whose
suffix is not `.meta`, `meta_file_for_asset` appends `.meta` to the final
component after its existing suffix, and `asset_for_meta_file` inverts it
exactly; each helper rejects the other's inputs with a `ValueError`. -/
theorem meta_companion_spec (p : PParts) (hrel : isAbs p = false)
    (hname : nameOf p ≠ "") (hsep : ('/' : Char) ∉ chars (nameOf p))
    (hsfx : sfx p ≠ ".meta") :
    meta_file_for_asset p = .ok (p.dropLast ++ [strApp (nameOf p) ".meta"]) ∧
    asset_for_meta_file (p.dropLast ++ [strApp (nameOf p) ".meta"]) = .ok p ∧
    (∀ q : PParts, sfx q = ".meta" → meta_file_for_asset q = .error .valueError) ∧
    (∀ q : PParts, sfx q ≠ ".meta" → asset_for_meta_file q = .error .valueError) := by
  have hnm_ne : strApp (nameOf p) ".meta" ≠ "" := by
    intro he
    have hl := congrArg (fun s => (chars s).length) he
    simp only [strApp_chars, List.length_append, length_meta_chars] at hl
    have h0 : (chars "").length = 0 := rfl
    omega
  have hfwd : meta_file_for_asset p = .ok (p.dropLast ++ [strApp (nameOf p) ".meta"]) := by
    unfold meta_file_for_asset
    rw [if_neg hsfx]
    unfold withSuffix
    have h1 : (chars (strApp (sfx p) ".meta")).contains '/' = false := by
      apply contains_eq_false
      rw [strApp_chars]
      intro hmem
      rcases List.mem_append.1 hmem with hm | hm
      · exact hsep (sfxChars_subset _ _ hm)
      · have hnot : ('/' : Char) ∉ chars ".meta" := by decide
        exact hnot hm
    rw [if_neg (by rw [h1]; exact Bool.false_ne_true)]
    have hstarts : strStarts (strApp (sfx p) ".meta") "." = true := by
      obtain ⟨tl, htl⟩ := strApp_meta_starts_dot (nameOf p)
      exact strStarts_dot htl
    have h2 : ¬ ((strApp (sfx p) ".meta" ≠ "" ∧ ¬ strStarts (strApp (sfx p) ".meta") ".") ∨
        strApp (sfx p) ".meta" = ".") := by
      rintro (⟨-, hns⟩ | hdot)
      · exact hns hstarts
      · exact strApp_meta_ne_dot (nameOf p) hdot
    rw [if_neg h2, if_neg hname]
    unfold sfx
    rw [newNameFor_meta]
  have hnm : nameOf (p.dropLast ++ [strApp (nameOf p) ".meta"]) = strApp (nameOf p) ".meta" := by
    apply nameOf_concat
    intro he
    have hl := congrArg (fun s => (chars s).length) he
    simp only [strApp_chars, List.length_append, length_meta_chars] at hl
    have h1 : (chars "/").length = 1 := rfl
    omega
  have hsfxq : sfx (p.dropLast ++ [strApp (nameOf p) ".meta"]) = ".meta" := by
    unfold sfx
    rw [hnm, strApp_chars, sfxChars_append_meta hname]
    rfl
  have hbwd : asset_for_meta_file (p.dropLast ++ [strApp (nameOf p) ".meta"]) = .ok p := by
    unfold asset_for_meta_file
    rw [if_neg (fun hc => hc hsfxq)]
    unfold withSuffix
    rw [if_neg (by exact Bool.false_ne_true)]
    rw [if_neg (by rintro (⟨hc, -⟩ | hc) <;> exact absurd hc (by decide))]
    rw [hnm, if_neg hnm_ne, List.dropLast_concat]
    have hnn : newNameFor (strApp (nameOf p) ".meta") "" = nameOf p := by
      unfold newNameFor
      have hsfxnm : sfxChars (chars (strApp (nameOf p) ".meta")) = chars ".meta" := by
        rw [strApp_chars]
        exact sfxChars_append_meta hname
      rw [hsfxnm]
      rw [if_neg (by decide)]
      rw [strApp_right_nil]
      apply String.ext
      show (chars (strApp (nameOf p) ".meta")).take
        ((chars (strApp (nameOf p) ".meta")).length - (chars ".meta").length) =
        chars (nameOf p)
      rw [strApp_chars, List.length_append, length_meta_chars]
      rw [show (chars (nameOf p)).length + 5 - 5 = (chars (nameOf p)).length from by omega]
      exact List.take_left _ _
    rw [hnn, dropLast_name_eq hname]
  refine ⟨hfwd, hbwd, ?_, ?_⟩
  · intro q hq
    unfold meta_file_for_asset
    rw [if_pos hq]
  · intro q hq
    unfold asset_for_meta_file
    rw [if_pos hq]

/-- Witness for C4 at a concrete tree: adding `a/b` to a fresh tree and
re-adding it returns the same node id 2 and the same tree. -/
theorem add_idempotent_witness :
    Inv twBase.store ∧ twBase.add ["a", "b"] = .ok (twAdded, 2) ∧
      twAdded.add ["a", "b"] = .ok (twAdded, 2) :=
  ⟨mkTree_inv [], by decide,
    add_idempotent twBase ["a", "b"] twAdded 2 (mkTree_inv []) (by decide)⟩

/-- Witness for C6 at the concrete asset `Assets/a.png`. -/
theorem meta_companion_spec_witness :
    isAbs ["Assets", "a.png"] = false ∧ nameOf ["Assets", "a.png"] ≠ "" ∧
      ('/' : Char) ∉ chars (nameOf ["Assets", "a.png"]) ∧
      sfx ["Assets", "a.png"] ≠ ".meta" ∧
      meta_file_for_asset ["Assets", "a.png"] = .ok ["Assets", "a.png.meta"] ∧
      asset_for_meta_file ["Assets", "a.png.meta"] = .ok ["Assets", "a.png"] := by
  have h := meta_companion_spec ["Assets", "a.png"] (by decide) (by decide)
    (by decide) (by decide)
  refine ⟨by decide, by decide, by decide, by decide, ?_, ?_⟩
  · exact h.1.trans (by decide)
  · have h2 := h.2.1
    have he : (["Assets", "a.png"].dropLast ++ [strApp (nameOf ["Assets", "a.png"]) ".meta"] :
        PParts) = ["Assets", "a.png.meta"] := by decide
    rw [he] at h2
    exact h2

/-! ### C7: the `add_child` error contract -/

/-- C7 counterexample: the name `a/` contains the path separator, yet
`add_child` accepts it (because `PurePath("a/")` parses to the single part
`a`), creating a child literally named `a/`.  This refutes the claim that
`add_child` fails with `InvalidNameError` whenever the name contains a
separator. -/
theorem addChild_separator_counterexample :
    ('/' : Char) ∈ chars "a/" ∧
      (parseParts "a/").length = 1 ∧
      addChild twBase.store 0 "a/" ≠ .error .invalidName ∧
      (addChild twBase.store 0 "a/").toOption.map (fun r => r.1.get r.2) =
        some (some ⟨"a/", some 0, []⟩) := by decide

/-- C7 (amended): `add_child(name)` fails with `InvalidNameError` when the
name parses to more than one path segment (names that merely contain
separators but parse to a single segment, such as `a/`, are accepted
verbatim); then fails with `DuplicateChildError` when a child of that name
exists; then fails with `InvalidNameError` when the name is empty;
otherwise it allocates a new child node carrying the name, linked under
this node last in insertion order, and returns it. -/
theorem addChild_contract (s : Store) (i : Nat) (nm : String) (d : NodeData)
    (hInv : Inv s) (hget : s.get i = some d) :
    ((parseParts nm).length > 1 → addChild s i nm = .error .invalidName) ∧
    ((parseParts nm).length ≤ 1 → (childLookup d.children nm).isSome →
      addChild s i nm = .error .duplicateChild) ∧
    ((parseParts nm).length ≤ 1 → childLookup d.children nm = none → nm = "" →
      addChild s i nm = .error .invalidName) ∧
    ((parseParts nm).length ≤ 1 → childLookup d.children nm = none → nm ≠ "" →
      ∃ s1, addChild s i nm = .ok (s1, s.next) ∧
        s1.get s.next = some ⟨nm, some i, []⟩ ∧
        s1.get i = some ⟨d.name, d.parent, d.children ++ [(nm, s.next)]⟩) := by
  refine ⟨?_, ?_, ?_, ?_⟩
  · intro hlen
    unfold addChild
    rw [if_pos hlen]
  · intro hlen hdup
    unfold addChild
    rw [if_neg (by omega), hget]
    dsimp only
    rw [if_pos hdup]
  · intro hlen hdup hempty
    unfold addChild
    rw [if_neg (by omega), hget]
    dsimp only
    rw [if_neg (by rw [hdup]; exact Bool.false_ne_true), if_pos hempty]
  · intro hlen hdup hempty
    cases hac : addChild s i nm with
    | error e =>
      exfalso
      unfold addChild at hac
      rw [if_neg (by omega), hget] at hac
      dsimp only at hac
      rw [if_neg (by rw [hdup]; exact Bool.false_ne_true), if_neg hempty] at hac
      cases hac
    | ok r =>
      obtain ⟨d2, hget2, hc, -, -, hgi, hgc, -, -, -, -⟩ := addChild_spec hInv hac
      rw [hget] at hget2
      injection hget2 with hd2
      subst hd2
      obtain ⟨s1, c⟩ := r
      dsimp only at hc hgi hgc
      subst hc
      exact ⟨s1, rfl, hgc, hgi⟩

/-- Witness for C7's amended contract at a concrete node. -/
theorem addChild_contract_witness :
    (parseParts "x").length ≤ 1 ∧
      childLookup (⟨".", none, []⟩ : NodeData).children "x" = none ∧
      ∃ s1, addChild twBase.store 0 "x" = .ok (s1, 1) ∧
        s1.get 1 = some ⟨"x", some 0, []⟩ ∧
        s1.get 0 = some ⟨".", none, [("x", 1)]⟩ := by
  refine ⟨by decide, by decide, ?_⟩
  have h := (addChild_contract twBase.store 0 "x" ⟨".", none, []⟩
    (mkTree_inv []) (by decide)).2.2.2 (by decide) (by decide) (by decide)
  exact h

/-! ### C8: absolute path arguments -/

/-- C8 counterexample: on a fresh tree, the absolute path `/` triggers
`InvalidPathError` in none of `has_descendant`, `descendant`, `remove`,
`prune` or `children` — `has_descendant` just returns `False` and the others
raise `NotFoundError` — refuting the claim that every path-taking operation
fails with `InvalidPathError` on an absolute path. -/
theorem absolute_path_counterexample :
    isAbs ["/"] = true ∧
      twBase.hasDescendant ["/"] = false ∧
      twBase.descendant ["/"] = .error .notFound ∧
      twBase.remove ["/"] = .error .notFound ∧
      twBase.prune ["/"] [] = .error .notFound ∧
      twBase.children ["/"] = .error .notFound := by decide

/-- C8 (amended): on an absolute path, only `add`, `children_count` and
`has_children` fail with `InvalidPathError` (they are the operations that
run `_check_path`); `descendant`, `children`, `prune` and `remove` fail
with `NotFoundError` whenever the root has no child literally named `/`
(which always holds for trees built through the `PathTree` interface), and
`has_descendant` simply returns `False`. -/
theorem absolute_path_contract (t : Tree) (p : PParts) (hab : isAbs p = true)
    (d : NodeData) (hroot : t.store.get t.root = some d)
    (hns : childLookup d.children "/" = none) :
    t.add p = .error .invalidPath ∧
    t.childrenCount p = .error .invalidPath ∧
    t.hasChildren p = .error .invalidPath ∧
    t.descendant p = .error .notFound ∧
    t.hasDescendant p = false ∧
    t.children p = .error .notFound ∧
    (∀ lp, t.prune p lp = .error .notFound) ∧
    t.remove p = .error .notFound := by
  obtain ⟨rest, rfl⟩ : ∃ rest, p = "/" :: rest := by
    cases p with
    | nil => cases hab
    | cons x xs =>
      refine ⟨xs, ?_⟩
      unfold isAbs at hab
      simp only [List.headD_cons, beq_iff_eq] at hab
      rw [hab]
  have hcp : checkPath ("/" :: rest) = .error .invalidPath := by
    unfold checkPath
    rw [if_pos hab]
  have hdesc : t.descendant ("/" :: rest) = .error .notFound := by
    show descendantFrom t.store t.root ("/" :: rest) = .error .notFound
    rw [descendantFrom_cons, hroot]
    dsimp only
    rw [hns]
  refine ⟨?_, ?_, ?_, hdesc, ?_, ?_, ?_, ?_⟩
  · unfold Tree.add
    rw [hcp]
  · unfold Tree.childrenCount
    rw [hcp]
  · unfold Tree.hasChildren Tree.childrenCount
    rw [hcp]
  · show hasDescendantFrom t.store t.root ("/" :: rest) = false
    rw [hasDescendantFrom, hroot]
    dsimp only
    rw [hns]
  · unfold Tree.children
    rw [hdesc]
  · intro lp
    unfold Tree.prune
    rw [hdesc]
  · unfold Tree.remove
    have hnr : isPathToRoot ("/" :: rest) = false := rfl
    rw [hnr, if_neg Bool.false_ne_true]
    have hpar : ∃ rest2, parentOf ("/" :: rest) = "/" :: rest2 := by
      unfold parentOf
      cases rest with
      | nil => exact ⟨[], by rw [if_pos (Or.inr rfl)]⟩
      | cons y ys =>
        rw [if_neg (by simp)]
        exact ⟨(y :: ys).dropLast, by rw [List.dropLast_cons₂]⟩
    obtain ⟨rest2, hpar⟩ := hpar
    rw [hpar]
    have hdesc2 : t.descendant ("/" :: rest2) = .error .notFound := by
      show descendantFrom t.store t.root ("/" :: rest2) = .error .notFound
      rw [descendantFrom_cons, hroot]
      dsimp only
      rw [hns]
    rw [hdesc2]

/-- Witness for C8's amended contract at a concrete tree and path. -/
theorem absolute_path_contract_witness :
    isAbs ["/", "a"] = true ∧
      twBase.store.get twBase.root = some ⟨".", none, []⟩ ∧
      twBase.add ["/", "a"] = .error .invalidPath ∧
      twBase.remove ["/", "a"] = .error .notFound ∧
      twBase.hasDescendant ["/", "a"] = false := by
  have h := absolute_path_contract twBase ["/", "a"] (by decide) ⟨".", none, []⟩
    (by decide) (by decide)
  exact ⟨by decide, by decide, h.1, h.2.2.2.2.2.2.2, h.2.2.2.2.1⟩

/-! ### C10: `..` segments are matched literally -/

theorem hasDescendantFrom_append (s : Store) (q : PParts) :
    ∀ (p : PParts) (r : Nat),
      hasDescendantFrom s r (p ++ q) =
        match descendantFrom s r p with
        | .ok m => hasDescendantFrom s m q
        | .error _ => false := by
  intro p
  induction p with
  | nil => intro r; rfl
  | cons part rest ih =>
    intro r
    rw [List.cons_append, descendantFrom_cons, hasDescendantFrom]
    cases s.get r with
    | none => rfl
    | some d =>
      dsimp only
      cases childLookup d.children part with
      | none => rfl
      | some c =>
        dsimp only
        exact ih c

theorem resolve_last_name {s : Store} {r : Nat} {l : List String} {x : String} {j : Nat}
    (hInv : Inv s) (h : descendantFrom s r (l ++ [x]) = .ok j) :
    ∃ dj, s.get j = some dj ∧ dj.name = x := by
  rw [descendantFrom_append] at h
  cases hm : descendantFrom s r l with
  | error e => rw [hm] at h; cases h
  | ok m =>
    rw [hm] at h
    dsimp only at h
    rw [descendantFrom_cons] at h
    cases hget : s.get m with
    | none => rw [hget] at h; cases h
    | some dm =>
      rw [hget] at h
      dsimp only at h
      cases hcl : childLookup dm.children x with
      | none => rw [hcl] at h; cases h
      | some c =>
        rw [hcl] at h
        dsimp only at h
        rw [descendantFrom_nil] at h
        cases h
        obtain ⟨dj, hdj, hname, -⟩ := hInv.child_link _ _ _ _ hget (childLookup_mem hcl)
        exact ⟨dj, hdj, hname⟩

/-- C10: path segments are matched purely literally.  Adding a path with a
`..` segment creates a child node literally named `..`; `has_descendant`
matches a `..` segment only against such a child and never navigates to the
parent; concretely, a tree holding `a/../b` answers `true` for `a/../b`
and `false` for `b`, and a tree holding `a/b` answers `false` for
`a/b/..`. -/
theorem dotdot_literal :
    (∀ (t t' : Tree) (i : Nat) (pre suf : PParts), Inv t.store →
      t.add (pre ++ ".." :: suf) = .ok (t', i) →
      ∃ j dj, t'.descendant (pre ++ [".."]) = .ok j ∧
        t'.store.get j = some dj ∧ dj.name = "..") ∧
    (∀ (t : Tree) (pre suf : PParts) (k : Nat) (dk : NodeData),
      t.descendant pre = .ok k → t.store.get k = some dk →
      childLookup dk.children ".." = none →
      t.hasDescendant (pre ++ ".." :: suf) = false) ∧
    ((fromIterable [["a", "..", "b"]] []).toOption.map (fun t =>
      (t.hasDescendant ["a", "..", "b"], t.hasDescendant ["b"])) =
        some (true, false)) ∧
    ((fromIterable [["a", "b"]] []).toOption.map (fun t =>
      t.hasDescendant ["a", "b", ".."]) = some false) := by
  refine ⟨?_, ?_, by decide, by decide⟩
  · intro t t' i pre suf hInv h
    unfold Tree.add at h
    cases hcp : checkPath (pre ++ ".." :: suf) with
    | error e => rw [hcp] at h; cases h
    | ok u =>
      rw [hcp] at h
      have hres := addLoop_resolves hInv h
      have hsplit : pre ++ ".." :: suf = (pre ++ [".."]) ++ suf := by
        rw [List.append_assoc]
        rfl
      rw [hsplit, descendantFrom_append] at hres
      cases hj : descendantFrom t'.store t.root (pre ++ [".."]) with
      | error e => rw [hj] at hres; cases hres
      | ok j =>
        obtain ⟨dj, hdj, hname⟩ :=
          resolve_last_name (addLoop_inv hInv h) hj
        refine ⟨j, dj, ?_, hdj, hname⟩
        show descendantFrom t'.store t'.root (pre ++ [".."]) = .ok j
        rw [(addLoop_root h).1]
        exact hj
  · intro t pre suf k dk hk hdk hcl
    show hasDescendantFrom t.store t.root (pre ++ ".." :: suf) = false
    rw [hasDescendantFrom_append]
    rw [show Tree.descendant t pre = descendantFrom t.store t.root pre from rfl] at hk
    rw [hk]
    dsimp only
    rw [hasDescendantFrom, hdk]
    dsimp only
    rw [hcl]

/-- Witness for C10's general statements at a concrete tree. -/
theorem dotdot_literal_witness :
    (Inv twBase.store ∧
      ∃ j dj, twDots.descendant ["a", ".."] = .ok j ∧
        twDots.store.get j = some dj ∧ dj.name = "..") ∧
    (twDots.descendant ["a", "..", "b"] = .ok 3 ∧
      twDots.hasDescendant ["a", "..", "b", ".."] = false) := by
  constructor
  · exact ⟨mkTree_inv [],
      dotdot_literal.1 twBase twDots 3 ["a"] ["b"] (mkTree_inv []) (by decide)⟩
  · refine ⟨by decide, ?_⟩
    exact dotdot_literal.2.1 twDots ["a", "..", "b"] [] 3 ⟨"b", some 2, []⟩
      (by decide) (by decide) (by decide)

/-! ### C2: the rename branch of `UnityGitRepository.proposed` -/

/-- C2 (code bug): with a tracked `Assets/old`, a staged addition of
`Assets/b` and a staged rename `Assets/old → Assets/new`, `proposed()`
prunes the stale loop variable `path` (still bound to `Assets/b` from the
`A` loop) instead of the rename's own old path: the result keeps
`Assets/old`, loses `Assets/b`, and gains `Assets/new`.  When no `A`/`D`
change precedes the rename, the variable is unbound and the call dies with
a `NameError`.  The checker's own rename loop in
`check_unity_meta_files.py` handles the same staged set as the claim
describes. -/
theorem proposed_rename_bug :
    ((proposed repoStaleRename).toOption.map (fun t =>
      (t.hasDescendant ["Assets", "old"], t.hasDescendant ["Assets", "b"],
        t.hasDescendant ["Assets", "new"]))) = some (true, false, true) ∧
    proposed repoOnlyRename = .error .nameError ∧
    ((buildProposed repoStaleRename).toOption.map (fun t =>
      (t.hasDescendant ["Assets", "old"], t.hasDescendant ["Assets", "b"],
        t.hasDescendant ["Assets", "new"]))) = some (false, true, true) := by decide

/-! ### C1: the classification loop -/

theorem setAdd_mem (l : List PParts) (x y : PParts) :
    y ∈ setAdd l x ↔ y ∈ l ∨ y = x := by
  unfold setAdd
  by_cases hx : x ∈ l
  · rw [if_pos hx]
    constructor
    · exact Or.inl
    · rintro (h | rfl)
      · exact h
      · exact hx
  · rw [if_neg hx]
    simp

theorem meta_not_asset {p : PParts} (h : is_meta_file p = true) : is_asset p = false := by
  unfold is_meta_file at h
  unfold is_asset
  by_cases hc : (p.length > 1 && (p.headD "" == "Assets")) = true
  · rw [if_pos hc] at h
    rw [if_pos hc]
    simp only [Bool.and_eq_true, beq_iff_eq] at h
    rw [h.2]
    simp [h.1]
  · rw [if_neg hc] at h
    cases h

theorem classifyLoop_cons (repo : Repo) (p : PParts) (rest : List PParts)
    (miss orph : List PParts) :
    classifyLoop repo (p :: rest) miss orph =
      if (is_asset p && repo.pathExists p) = true then
        match meta_file_for_asset p with
        | .error e => .error e
        | .ok m =>
          if (!repo.isFile m) = true then classifyLoop repo rest (setAdd miss m) orph
          else classifyLoop repo rest miss orph
      else if (is_meta_file p && repo.isFile p) = true then
        match asset_for_meta_file p with
        | .error e => .error e
        | .ok a =>
          if (!repo.pathExists a) = true then classifyLoop repo rest miss (setAdd orph p)
          else classifyLoop repo rest miss orph
      else classifyLoop repo rest miss orph := by
  rw [classifyLoop]

theorem classifyLoop_spec (repo : Repo) :
    ∀ (paths : List PParts) (miss orph missF orphF : List PParts),
      classifyLoop repo paths miss orph = .ok (missF, orphF) →
      (∀ m, m ∈ missF ↔ m ∈ miss ∨ ∃ p, p ∈ paths ∧ missCond repo p m) ∧
      (∀ q, q ∈ orphF ↔ q ∈ orph ∨ (q ∈ paths ∧ orphCond repo q)) := by
  intro paths
  induction paths with
  | nil =>
    intro miss orph missF orphF h
    rw [classifyLoop] at h
    cases h
    constructor
    · intro m
      simp
    · intro q
      simp
  | cons p rest ih =>
    intro miss orph missF orphF h
    rw [classifyLoop_cons] at h
    by_cases hb1 : (is_asset p && repo.pathExists p) = true
    · rw [if_pos hb1] at h
      have hb1' : is_asset p = true ∧ repo.pathExists p = true := by simpa using hb1
      cases hmf : meta_file_for_asset p with
      | error e => rw [hmf] at h; cases h
      | ok m0 =>
        rw [hmf] at h
        dsimp only at h
        have horph_side : ∀ (missA : List PParts)
            (h' : classifyLoop repo rest missA orph = .ok (missF, orphF))
            (iho : ∀ q, q ∈ orphF ↔ q ∈ orph ∨ (q ∈ rest ∧ orphCond repo q)),
            ∀ q, q ∈ orphF ↔ q ∈ orph ∨ (q ∈ p :: rest ∧ orphCond repo q) := by
          intro missA h' iho q
          rw [iho q]
          constructor
          · rintro (hq | ⟨hq', hc⟩)
            · exact Or.inl hq
            · exact Or.inr ⟨List.mem_cons_of_mem _ hq', hc⟩
          · rintro (hq | ⟨hq', hc⟩)
            · exact Or.inl hq
            · rcases List.mem_cons.1 hq' with rfl | hq''
              · obtain ⟨hmeta, -, -⟩ := hc
                rw [meta_not_asset hmeta] at hb1'
                exact absurd hb1'.1 (by simp)
              · exact Or.inr ⟨hq'', hc⟩
        by_cases hfile : (!repo.isFile m0) = true
        · rw [if_pos hfile] at h
          obtain ⟨ihm, iho⟩ := ih _ _ _ _ h
          rw [Bool.not_eq_true'] at hfile
          refine ⟨?_, horph_side _ h iho⟩
          intro x
          rw [ihm x, setAdd_mem]
          constructor
          · rintro ((hx | rfl) | ⟨p', hp', hc⟩)
            · exact Or.inl hx
            · exact Or.inr ⟨p, List.mem_cons_self _ _, hb1'.1, hb1'.2, hmf, hfile⟩
            · exact Or.inr ⟨p', List.mem_cons_of_mem _ hp', hc⟩
          · rintro (hx | ⟨p', hp', hc⟩)
            · exact Or.inl (Or.inl hx)
            · rcases List.mem_cons.1 hp' with rfl | hp''
              · obtain ⟨-, -, hmf', -⟩ := hc
                rw [hmf] at hmf'
                injection hmf' with he
                exact Or.inl (Or.inr he.symm)
              · exact Or.inr ⟨p', hp'', hc⟩
        · rw [if_neg hfile] at h
          obtain ⟨ihm, iho⟩ := ih _ _ _ _ h
          have hfile' : repo.isFile m0 = true := by
            simpa using hfile
          refine ⟨?_, horph_side _ h iho⟩
          intro x
          rw [ihm x]
          constructor
          · rintro (hx | ⟨p', hp', hc⟩)
            · exact Or.inl hx
            · exact Or.inr ⟨p', List.mem_cons_of_mem _ hp', hc⟩
          · rintro (hx | ⟨p', hp', hc⟩)
            · exact Or.inl hx
            · rcases List.mem_cons.1 hp' with rfl | hp''
              · obtain ⟨-, -, hmf', hf⟩ := hc
                rw [hmf] at hmf'
                injection hmf' with he
                subst he
                rw [hfile'] at hf
                cases hf
              · exact Or.inr ⟨p', hp'', hc⟩
    · rw [if_neg hb1] at h
      have hmiss_side : ∀ (orphA : List PParts)
          (h' : classifyLoop repo rest miss orphA = .ok (missF, orphF))
          (ihm : ∀ m, m ∈ missF ↔ m ∈ miss ∨ ∃ p', p' ∈ rest ∧ missCond repo p' m),
          ∀ m, m ∈ missF ↔ m ∈ miss ∨ ∃ p', p' ∈ p :: rest ∧ missCond repo p' m := by
        intro orphA h' ihm x
        rw [ihm x]
        constructor
        · rintro (hx | ⟨p', hp', hc⟩)
          · exact Or.inl hx
          · exact Or.inr ⟨p', List.mem_cons_of_mem _ hp', hc⟩
        · rintro (hx | ⟨p', hp', hc⟩)
          · exact Or.inl hx
          · rcases List.mem_cons.1 hp' with rfl | hp''
            · obtain ⟨ha, he, -, -⟩ := hc
              exact absurd (by simp [ha, he]) hb1
            · exact Or.inr ⟨p', hp'', hc⟩
      by_cases hb2 : (is_meta_file p && repo.isFile p) = true
      · rw [if_pos hb2] at h
        have hb2' : is_meta_file p = true ∧ repo.isFile p = true := by simpa using hb2
        cases hmf : asset_for_meta_file p with
        | error e => rw [hmf] at h; cases h
        | ok a0 =>
          rw [hmf] at h
          dsimp only at h
          by_cases hex : (!repo.pathExists a0) = true
          · rw [if_pos hex] at h
            obtain ⟨ihm, iho⟩ := ih _ _ _ _ h
            rw [Bool.not_eq_true'] at hex
            refine ⟨hmiss_side _ h ihm, ?_⟩
            intro q
            rw [iho q, setAdd_mem]
            constructor
            · rintro (hq | ⟨hq', hc⟩)
              · rcases hq with hq | rfl
                · exact Or.inl hq
                · exact Or.inr ⟨List.mem_cons_self _ _, hb2'.1, hb2'.2, a0, hmf, hex⟩
              · exact Or.inr ⟨List.mem_cons_of_mem _ hq', hc⟩
            · rintro (hq | ⟨hq', hc⟩)
              · exact Or.inl (Or.inl hq)
              · rcases List.mem_cons.1 hq' with rfl | hq''
                · exact Or.inl (Or.inr rfl)
                · exact Or.inr ⟨hq'', hc⟩
          · rw [if_neg hex] at h
            obtain ⟨ihm, iho⟩ := ih _ _ _ _ h
            have hex' : repo.pathExists a0 = true := by
              simpa using hex
            refine ⟨hmiss_side _ h ihm, ?_⟩
            intro q
            rw [iho q]
            constructor
            · rintro (hq | ⟨hq', hc⟩)
              · exact Or.inl hq
              · exact Or.inr ⟨List.mem_cons_of_mem _ hq', hc⟩
            · rintro (hq | ⟨hq', hc⟩)
              · exact Or.inl hq
              · rcases List.mem_cons.1 hq' with rfl | hq''
                · obtain ⟨-, -, a, hmf', hf⟩ := hc
                  rw [hmf] at hmf'
                  injection hmf' with he
                  subst he
                  rw [hex'] at hf
                  cases hf
                · exact Or.inr ⟨hq'', hc⟩
      · rw [if_neg hb2] at h
        obtain ⟨ihm, iho⟩ := ih _ _ _ _ h
        refine ⟨hmiss_side _ h ihm, ?_⟩
        intro q
        rw [iho q]
        constructor
        · rintro (hq | ⟨hq', hc⟩)
          · exact Or.inl hq
          · exact Or.inr ⟨List.mem_cons_of_mem _ hq', hc⟩
        · rintro (hq | ⟨hq', hc⟩)
          · exact Or.inl hq
          · rcases List.mem_cons.1 hq' with rfl | hq''
            · obtain ⟨hmeta, hf, -⟩ := hc
              exact absurd (by simp [hmeta, hf]) hb2
            · exact Or.inr ⟨hq'', hc⟩

/-- C1: `check_unity_meta_files` returns `(success, missing, orphans)`
where `missing` holds exactly the companion metadata paths of enumerated
tree paths that exist and classify as assets but whose companion is not a
file, `orphans` holds exactly the enumerated paths that are files and
classify as metadata files but whose derived asset does not exist, and
`success` holds iff both sets are empty; in particular, with
`tracked = {Assets/a}` and no staged changes the result is
`missing = {Assets/a.meta}`, `orphans = {}`. -/
theorem check_spec :
    (∀ (repo : Repo) (t : Tree) (paths missF orphF : List PParts),
      buildProposed repo = .ok t → t.allPaths = .ok paths →
      classifyLoop repo paths [] [] = .ok (missF, orphF) →
      check_unity_meta_files repo =
        .ok ((missF.length + orphF.length == 0), missF, orphF) ∧
      (∀ m, m ∈ missF ↔ ∃ p, p ∈ paths ∧ missCond repo p m) ∧
      (∀ q, q ∈ orphF ↔ q ∈ paths ∧ orphCond repo q) ∧
      (((missF.length + orphF.length == 0) = true) ↔ missF = [] ∧ orphF = [])) ∧
    check_unity_meta_files repoMissingMeta = .ok (false, [["Assets", "a.meta"]], []) := by
  constructor
  · intro repo t paths missF orphF hb hp hc
    refine ⟨?_, ?_, ?_, ?_⟩
    · unfold check_unity_meta_files
      rw [hb]
      dsimp only
      rw [hp]
      dsimp only
      rw [hc]
    · intro m
      have h := (classifyLoop_spec repo paths [] [] missF orphF hc).1 m
      simpa using h
    · intro q
      have h := (classifyLoop_spec repo paths [] [] missF orphF hc).2 q
      simpa using h
    · constructor
      · intro hz
        have hz' : missF.length + orphF.length = 0 := by simpa using hz
        exact ⟨List.length_eq_zero.1 (by omega), List.length_eq_zero.1 (by omega)⟩
      · rintro ⟨rfl, rfl⟩
        rfl
  · decide

/-- Witness for C1's general characterization at the concrete scenario
`tracked = {Assets/a}`. -/
theorem check_spec_witness :
    buildProposed repoMissingMeta = .ok ((buildProposed repoMissingMeta).toOption.getD twBase) ∧
    (["Assets", "a.meta"] ∈ [(["Assets", "a.meta"] : PParts)] ↔
      ∃ p, p ∈ [([] : PParts), ["Assets"], ["Assets", "a"]] ∧
        missCond repoMissingMeta p ["Assets", "a.meta"]) := by
  have hb : buildProposed repoMissingMeta =
      .ok ((buildProposed repoMissingMeta).toOption.getD twBase) := by decide
  have h := (check_spec.1 repoMissingMeta ((buildProposed repoMissingMeta).toOption.getD twBase)
    [[], ["Assets"], ["Assets", "a"]] [["Assets", "a.meta"]] [] hb (by decide)
    (by decide)).2.1 ["Assets", "a.meta"]
  exact ⟨hb, h⟩

/-! ### C3: hidden paths never enter the tree nor the reports -/

theorem is_hidden_eq_false_iff (p : PParts) :
    is_hidden p = false ↔ ∀ part ∈ p, strStarts part "." = false := by
  unfold is_hidden
  rw [List.any_eq_false]
  constructor
  · intro h part hp
    have := h part hp
    simpa using this
  · intro h part hp
    simpa using h part hp

theorem clean_mkTree (r : PParts) : CleanStore (mkTree r).store := by
  intro i d hget
  rw [mkTree_get] at hget
  by_cases hi : i = 0
  · rw [if_pos hi] at hget
    cases hget
    exact Or.inl rfl
  · rw [if_neg hi] at hget
    cases hget

theorem clean_addChild {s : Store} {i : Nat} {nm : String} {s1 : Store} {c : Nat}
    (hInv : Inv s) (hclean : CleanStore s) (hnm : strStarts nm "." = false)
    (h : addChild s i nm = .ok (s1, c)) : CleanStore s1 := by
  obtain ⟨d, hget, -, -, -, hgi, hgc, hother, -, -, -⟩ := addChild_spec hInv h
  intro j dj hj
  by_cases hji : j = i
  · subst hji
    rw [hgi] at hj
    cases hj
    exact hclean j d hget
  · by_cases hjc : j = c
    · subst hjc
      rw [hgc] at hj
      cases hj
      exact Or.inr hnm
    · rw [hother j hji hjc] at hj
      exact hclean _ _ hj

theorem clean_removeChild {s : Store} {i : Nat} {nm : String} {s1 : Store} {r : Nat}
    (hclean : CleanStore s) (h : removeChild s i nm = .ok (s1, r)) : CleanStore s1 := by
  obtain ⟨d, hget, -, -, hgi, hother, -⟩ := removeChild_spec h
  intro j dj hj
  by_cases hji : j = i
  · subst hji
    rw [hgi] at hj
    cases hj
    exact hclean j d hget
  · rw [hother j hji] at hj
    exact hclean _ _ hj

theorem clean_clearNode {s : Store} {i : Nat} {s1 : Store}
    (hclean : CleanStore s) (h : clearNode s i = .ok s1) : CleanStore s1 := by
  obtain ⟨d, hget, -, hgi, hother⟩ := clearNode_spec h
  intro j dj hj
  by_cases hji : j = i
  · subst hji
    rw [hgi] at hj
    cases hj
    exact hclean j d hget
  · rw [hother j hji] at hj
    exact hclean _ _ hj

theorem clean_addLoop {t : Tree} {p : PParts} {cur : Nat} {t1 : Tree} {j : Nat}
    (hInv : Inv t.store) (hclean : CleanStore t.store)
    (hp : ∀ part ∈ p, strStarts part "." = false)
    (h : addLoop t cur p = .ok (t1, j)) : CleanStore t1.store := by
  induction p generalizing t cur with
  | nil =>
    rw [addLoop_nil] at h
    cases h
    exact hclean
  | cons part rest ih =>
    rw [addLoop_cons] at h
    cases hget : t.store.get cur with
    | none => rw [hget] at h; cases h
    | some d =>
      rw [hget] at h
      dsimp only at h
      cases hcl : childLookup d.children part with
      | some c =>
        rw [hcl] at h
        dsimp only at h
        exact ih hInv hclean (fun q hq => hp q (List.mem_cons_of_mem _ hq)) h
      | none =>
        rw [hcl] at h
        dsimp only at h
        cases hac : addChild t.store cur part with
        | error e => rw [hac] at h; cases h
        | ok r =>
          obtain ⟨s1, c⟩ := r
          rw [hac] at h
          dsimp only at h
          exact ih (t := { t with store := s1 }) (addChild_inv hInv hac)
            (clean_addChild hInv hclean (hp part (List.mem_cons_self _ _)) hac)
            (fun q hq => hp q (List.mem_cons_of_mem _ hq)) h

theorem clean_add {t : Tree} {p : PParts} {t1 : Tree} {j : Nat}
    (hInv : Inv t.store) (hclean : CleanStore t.store) (hp : is_hidden p = false)
    (h : t.add p = .ok (t1, j)) : CleanStore t1.store := by
  unfold Tree.add at h
  cases hcp : checkPath p with
  | error e => rw [hcp] at h; cases h
  | ok u =>
    rw [hcp] at h
    exact clean_addLoop hInv hclean ((is_hidden_eq_false_iff p).1 hp) h

theorem clean_pruneLoop {fuel : Nat} :
    ∀ {s : Store} {limit parent : Nat} {s2 : Store} {stop : Nat},
      CleanStore s → pruneLoop fuel s limit parent = .ok (s2, stop) →
      CleanStore s2 := by
  induction fuel with
  | zero => intro s limit parent s2 stop hclean h; cases h
  | succ fuel ih =>
    intro s limit parent s2 stop hclean h
    rw [pruneLoop] at h
    cases hget : s.get parent with
    | none => rw [hget] at h; cases h
    | some d =>
      rw [hget] at h
      dsimp only at h
      by_cases hstop : d.parent = none ∨ parent = limit ∨ d.children.length > 0
      · rw [if_pos hstop] at h
        cases h
        exact hclean
      · rw [if_neg hstop] at h
        cases hpar : d.parent with
        | none => rw [hpar] at h; dsimp only at h; cases h; exact hclean
        | some gp =>
          rw [hpar] at h
          dsimp only at h
          cases hrc : removeChild s gp d.name with
          | error e => rw [hrc] at h; cases h
          | ok r =>
            obtain ⟨s1, rr⟩ := r
            rw [hrc] at h
            dsimp only at h
            exact ih (clean_removeChild hclean hrc) h

theorem clean_prune {t : Tree} {path limit_path : PParts} {t1 : Tree} {stop : Nat}
    (hclean : CleanStore t.store) (h : t.prune path limit_path = .ok (t1, stop)) :
    CleanStore t1.store := by
  unfold Tree.prune at h
  cases h1 : t.descendant path with
  | error e => rw [h1] at h; cases h
  | ok node =>
    rw [h1] at h
    dsimp only at h
    cases h2 : t.descendant limit_path with
    | error e => rw [h2] at h; cases h
    | ok limit =>
      rw [h2] at h
      dsimp only at h
      cases h3 : ancestorWalk (t.store.next + 1) t.store limit node with
      | error e => rw [h3] at h; cases h
      | ok stop0 =>
        rw [h3] at h
        dsimp only at h
        cases h4 : t.store.get stop0 with
        | none => rw [h4] at h; cases h
        | some dstop =>
          rw [h4] at h
          dsimp only at h
          by_cases h5 : dstop.parent = none
          · rw [if_pos h5] at h
            cases h
          · rw [if_neg h5] at h
            cases h6 : t.store.get node with
            | none => rw [h6] at h; cases h
            | some dnode =>
              rw [h6] at h
              dsimp only at h
              cases h7 : dnode.parent with
              | none => rw [h7] at h; cases h
              | some par =>
                rw [h7] at h
                dsimp only at h
                cases h8 : removeChild t.store par dnode.name with
                | error e => rw [h8] at h; cases h
                | ok r =>
                  obtain ⟨s1, rr⟩ := r
                  rw [h8] at h
                  dsimp only at h
                  cases h9 : pruneLoop (t.store.next + 1) s1 limit par with
                  | error e => rw [h9] at h; cases h
                  | ok r2 =>
                    obtain ⟨s2, stopping⟩ := r2
                    rw [h9] at h
                    dsimp only at h
                    cases h
                    exact clean_pruneLoop (clean_removeChild hclean h8) h9

theorem pruneLoop_inv {fuel : Nat} :
    ∀ {s : Store} {limit parent : Nat} {s2 : Store} {stop : Nat},
      Inv s → pruneLoop fuel s limit parent = .ok (s2, stop) → Inv s2 := by
  induction fuel with
  | zero => intro s limit parent s2 stop hInv h; cases h
  | succ fuel ih =>
    intro s limit parent s2 stop hInv h
    rw [pruneLoop] at h
    cases hget : s.get parent with
    | none => rw [hget] at h; cases h
    | some d =>
      rw [hget] at h
      dsimp only at h
      by_cases hstop : d.parent = none ∨ parent = limit ∨ d.children.length > 0
      · rw [if_pos hstop] at h
        cases h
        exact hInv
      · rw [if_neg hstop] at h
        cases hpar : d.parent with
        | none => rw [hpar] at h; dsimp only at h; cases h; exact hInv
        | some gp =>
          rw [hpar] at h
          dsimp only at h
          cases hrc : removeChild s gp d.name with
          | error e => rw [hrc] at h; cases h
          | ok r =>
            obtain ⟨s1, rr⟩ := r
            rw [hrc] at h
            dsimp only at h
            exact ih (removeChild_inv hInv hrc) h

theorem prune_inv {t : Tree} {path limit_path : PParts} {t1 : Tree} {stop : Nat}
    (hInv : Inv t.store) (h : t.prune path limit_path = .ok (t1, stop)) :
    Inv t1.store := by
  unfold Tree.prune at h
  cases h1 : t.descendant path with
  | error e => rw [h1] at h; cases h
  | ok node =>
    rw [h1] at h
    dsimp only at h
    cases h2 : t.descendant limit_path with
    | error e => rw [h2] at h; cases h
    | ok limit =>
      rw [h2] at h
      dsimp only at h
      cases h3 : ancestorWalk (t.store.next + 1) t.store limit node with
      | error e => rw [h3] at h; cases h
      | ok stop0 =>
        rw [h3] at h
        dsimp only at h
        cases h4 : t.store.get stop0 with
        | none => rw [h4] at h; cases h
        | some dstop =>
          rw [h4] at h
          dsimp only at h
          by_cases h5 : dstop.parent = none
          · rw [if_pos h5] at h
            cases h
          · rw [if_neg h5] at h
            cases h6 : t.store.get node with
            | none => rw [h6] at h; cases h
            | some dnode =>
              rw [h6] at h
              dsimp only at h
              cases h7 : dnode.parent with
              | none => rw [h7] at h; cases h
              | some par =>
                rw [h7] at h
                dsimp only at h
                cases h8 : removeChild t.store par dnode.name with
                | error e => rw [h8] at h; cases h
                | ok r =>
                  obtain ⟨s1, rr⟩ := r
                  rw [h8] at h
                  dsimp only at h
                  cases h9 : pruneLoop (t.store.next + 1) s1 limit par with
                  | error e => rw [h9] at h; cases h
                  | ok r2 =>
                    obtain ⟨s2, stopping⟩ := r2
                    rw [h9] at h
                    dsimp only at h
                    cases h
                    exact pruneLoop_inv (removeChild_inv hInv h8) h9

/-- `Inv` and `CleanStore` together, as maintained by the checker. -/
theorem addAll_inv_clean {paths : List PParts} :
    ∀ {t : Tree} {t1 : Tree}, Inv t.store → CleanStore t.store →
      (∀ p ∈ paths, is_hidden p = false) → addAll t paths = .ok t1 →
      Inv t1.store ∧ CleanStore t1.store := by
  induction paths with
  | nil =>
    intro t t1 hInv hclean hp h
    cases h
    exact ⟨hInv, hclean⟩
  | cons p rest ih =>
    intro t t1 hInv hclean hp h
    rw [addAll] at h
    cases ha : t.add p with
    | error e => rw [ha] at h; cases h
    | ok r =>
      obtain ⟨t2, j⟩ := r
      rw [ha] at h
      dsimp only at h
      exact ih (add_inv hInv ha)
        (clean_add hInv hclean (hp p (List.mem_cons_self _ _)) ha)
        (fun q hq => hp q (List.mem_cons_of_mem _ hq)) h

theorem fromIterable_inv_clean {paths : List PParts} {r : PParts} {t : Tree}
    (hp : ∀ p ∈ paths, is_hidden p = false) (h : fromIterable paths r = .ok t) :
    Inv t.store ∧ CleanStore t.store :=
  addAll_inv_clean (mkTree_inv r) (clean_mkTree r) hp h

theorem checkerDeletes_inv_clean {tuples : List (List PParts)} :
    ∀ {t t1 : Tree}, Inv t.store → CleanStore t.store →
      checkerDeletes t tuples = .ok t1 → Inv t1.store ∧ CleanStore t1.store := by
  induction tuples with
  | nil => intro t t1 hInv hclean h; cases h; exact ⟨hInv, hclean⟩
  | cons tup rest ih =>
    intro t t1 hInv hclean h
    cases tup with
    | nil => rw [checkerDeletes] at h; cases h
    | cons p tl =>
      cases tl with
      | cons x xs => rw [checkerDeletes] at h; cases h
      | nil =>
        rw [checkerDeletes] at h
        by_cases hh : (!is_hidden p) = true
        · rw [if_pos hh] at h
          cases hpr : Tree.prune t p ["Assets"] with
          | error e => rw [hpr] at h; cases h
          | ok r =>
            obtain ⟨t2, j⟩ := r
            rw [hpr] at h
            dsimp only at h
            exact ih (prune_inv hInv hpr) (clean_prune hclean hpr) h
        · rw [if_neg hh] at h
          exact ih hInv hclean h

theorem checkerAdds_inv_clean {tuples : List (List PParts)} :
    ∀ {t t1 : Tree}, Inv t.store → CleanStore t.store →
      checkerAdds t tuples = .ok t1 → Inv t1.store ∧ CleanStore t1.store := by
  induction tuples with
  | nil => intro t t1 hInv hclean h; cases h; exact ⟨hInv, hclean⟩
  | cons tup rest ih =>
    intro t t1 hInv hclean h
    cases tup with
    | nil => rw [checkerAdds] at h; cases h
    | cons p tl =>
      cases tl with
      | cons x xs => rw [checkerAdds] at h; cases h
      | nil =>
        rw [checkerAdds] at h
        by_cases hh : (!is_hidden p) = true
        · rw [if_pos hh] at h
          cases ha : Tree.add t p with
          | error e => rw [ha] at h; cases h
          | ok r =>
            obtain ⟨t2, j⟩ := r
            rw [ha] at h
            dsimp only at h
            have hph : is_hidden p = false := by simpa using hh
            exact ih (add_inv hInv ha) (clean_add hInv hclean hph ha) h
        · rw [if_neg hh] at h
          exact ih hInv hclean h

theorem checkerRenames_inv_clean {tuples : List (List PParts)} :
    ∀ {t t1 : Tree}, Inv t.store → CleanStore t.store →
      checkerRenames t tuples = .ok t1 → Inv t1.store ∧ CleanStore t1.store := by
  induction tuples with
  | nil => intro t t1 hInv hclean h; cases h; exact ⟨hInv, hclean⟩
  | cons tup rest ih =>
    intro t t1 hInv hclean h
    cases tup with
    | nil => rw [checkerRenames] at h; cases h
    | cons old tl =>
      cases tl with
      | nil => rw [checkerRenames] at h; cases h
      | cons new tl2 =>
        cases tl2 with
        | cons x xs => rw [checkerRenames] at h; cases h
        | nil =>
          rw [checkerRenames] at h
          have hmid : ∀ {tm : Tree},
              (if (!is_hidden old) = true then
                match Tree.prune t old ["Assets"] with
                | .error e => Except.error e
                | .ok (t1, _) => Except.ok t1
              else Except.ok t) = .ok tm →
              Inv tm.store ∧ CleanStore tm.store := by
            intro tm hm
            by_cases hh : (!is_hidden old) = true
            · rw [if_pos hh] at hm
              cases hpr : Tree.prune t old ["Assets"] with
              | error e => rw [hpr] at hm; cases hm
              | ok r =>
                obtain ⟨t2, j⟩ := r
                rw [hpr] at hm
                dsimp only at hm
                cases hm
                exact ⟨prune_inv hInv hpr, clean_prune hclean hpr⟩
            · rw [if_neg hh] at hm
              cases hm
              exact ⟨hInv, hclean⟩
          cases hstep : (if (!is_hidden old) = true then
              match Tree.prune t old ["Assets"] with
              | .error e => Except.error e
              | .ok (t1, _) => Except.ok t1
            else Except.ok t) with
          | error e => rw [hstep] at h; cases h
          | ok tm =>
            rw [hstep] at h
            dsimp only at h
            obtain ⟨hInv2, hclean2⟩ := hmid hstep
            by_cases hh2 : (!is_hidden new) = true
            · rw [if_pos hh2] at h
              cases ha : Tree.add tm new with
              | error e => rw [ha] at h; cases h
              | ok r =>
                obtain ⟨t2, j⟩ := r
                rw [ha] at h
                dsimp only at h
                have hph : is_hidden new = false := by simpa using hh2
                exact ih (add_inv hInv2 ha) (clean_add hInv2 hclean2 hph ha) h
            · rw [if_neg hh2] at h
              exact ih hInv2 hclean2 h

theorem checkerStaged_inv_clean {staged : List (String × List (List PParts))} :
    ∀ {t t1 : Tree}, Inv t.store → CleanStore t.store →
      checkerStaged t staged = .ok t1 → Inv t1.store ∧ CleanStore t1.store := by
  induction staged with
  | nil => intro t t1 hInv hclean h; cases h; exact ⟨hInv, hclean⟩
  | cons entry rest ih =>
    intro t t1 hInv hclean h
    obtain ⟨change, tuples⟩ := entry
    rw [checkerStaged] at h
    by_cases hD : change = "D"
    · rw [if_pos hD] at h
      cases hs : checkerDeletes t tuples with
      | error e => rw [hs] at h; cases h
      | ok t2 =>
        rw [hs] at h
        dsimp only at h
        obtain ⟨h1, h2⟩ := checkerDeletes_inv_clean hInv hclean hs
        exact ih h1 h2 h
    · rw [if_neg hD] at h
      by_cases hA : change = "A"
      · rw [if_pos hA] at h
        cases hs : checkerAdds t tuples with
        | error e => rw [hs] at h; cases h
        | ok t2 =>
          rw [hs] at h
          dsimp only at h
          obtain ⟨h1, h2⟩ := checkerAdds_inv_clean hInv hclean hs
          exact ih h1 h2 h
      · rw [if_neg hA] at h
        by_cases hR : change = "R"
        · rw [if_pos hR] at h
          cases hs : checkerRenames t tuples with
          | error e => rw [hs] at h; cases h
          | ok t2 =>
            rw [hs] at h
            dsimp only at h
            obtain ⟨h1, h2⟩ := checkerRenames_inv_clean hInv hclean hs
            exact ih h1 h2 h
        · rw [if_neg hR] at h
          dsimp only at h
          exact ih hInv hclean h

theorem buildProposed_inv_clean {repo : Repo} {t : Tree}
    (h : buildProposed repo = .ok t) : Inv t.store ∧ CleanStore t.store := by
  unfold buildProposed at h
  cases hf : fromIterable (repo.tracked.filter (fun p => !is_hidden p)) repo.root with
  | error e => rw [hf] at h; cases h
  | ok t0 =>
    rw [hf] at h
    dsimp only at h
    have hfilter : ∀ p ∈ repo.tracked.filter (fun p => !is_hidden p),
        is_hidden p = false := by
      intro p hp
      have := List.of_mem_filter hp
      simpa using this
    obtain ⟨h1, h2⟩ := fromIterable_inv_clean hfilter hf
    exact checkerStaged_inv_clean h1 h2 h

theorem strStarts_head {s : String} {c : Char} {tl : List Char}
    (h : chars s = c :: tl) : strStarts s "." = ('.' == c) := by
  unfold strStarts
  rw [h]
  show List.isPrefixOf ['.'] (c :: tl) = ('.' == c)
  rw [List.isPrefixOf]
  cases hc : ('.' == c) with
  | true => simp [List.isPrefixOf]
  | false => rfl

theorem joinSeg_clean {base : PParts} {name : String}
    (hbase : is_hidden base = false) (hname : name = "." ∨ strStarts name "." = false) :
    is_hidden (joinSeg base name) = false := by
  unfold joinSeg
  by_cases h1 : name = "."
  · rw [if_pos h1]
    exact hbase
  · rw [if_neg h1]
    by_cases h2 : name = "/"
    · rw [if_pos h2]
      decide
    · rw [if_neg h2]
      unfold is_hidden at hbase ⊢
      rw [List.any_append, hbase]
      rcases hname with rfl | hname
      · exact absurd rfl h1
      · simp [hname]

theorem allPathsGroup_clean {s : Store} (hclean : CleanStore s) :
    ∀ {nodes : List Nat} {base : PParts} {ys : List PParts}
      {qs : List (PParts × List Nat)},
      is_hidden base = false → allPathsGroup s base nodes = .ok (ys, qs) →
      (∀ y ∈ ys, is_hidden y = false) ∧ (∀ e ∈ qs, is_hidden e.1 = false) := by
  intro nodes
  induction nodes with
  | nil =>
    intro base ys qs hbase h
    rw [allPathsGroup] at h
    cases h
    exact ⟨fun y hy => absurd hy (List.not_mem_nil _), fun e he => absurd he (List.not_mem_nil _)⟩
  | cons n rest ih =>
    intro base ys qs hbase h
    rw [allPathsGroup] at h
    cases hget : s.get n with
    | none => rw [hget] at h; cases h
    | some d =>
      rw [hget] at h
      dsimp only at h
      cases hg : allPathsGroup s base rest with
      | error e => rw [hg] at h; cases h
      | ok r =>
        obtain ⟨ys0, qs0⟩ := r
        rw [hg] at h
        dsimp only at h
        cases h
        have hpath : is_hidden (joinSeg base d.name) = false :=
          joinSeg_clean hbase (hclean n d hget)
        obtain ⟨hys, hqs⟩ := ih hbase hg
        constructor
        · intro y hy
          rcases List.mem_cons.1 hy with rfl | hy'
          · exact hpath
          · exact hys y hy'
        · intro e he
          rcases List.mem_cons.1 he with rfl | he'
          · exact hpath
          · exact hqs e he'

theorem allPathsLoop_clean {s : Store} (hclean : CleanStore s) :
    ∀ (fuel : Nat) (q : List (PParts × List Nat)) (out : List PParts),
      (∀ e ∈ q, is_hidden e.1 = false) → allPathsLoop fuel s q = .ok out →
      ∀ p ∈ out, is_hidden p = false := by
  intro fuel
  induction fuel with
  | zero =>
    intro q out hq h
    cases q with
    | nil => rw [allPathsLoop] at h; cases h; intro p hp; cases hp
    | cons e rest => rw [allPathsLoop] at h; cases h
  | succ fuel ih =>
    intro q out hq h
    cases q with
    | nil => rw [allPathsLoop] at h; cases h; intro p hp; cases hp
    | cons e rest =>
      obtain ⟨base, nodes⟩ := e
      rw [allPathsLoop] at h
      cases hg : allPathsGroup s base nodes with
      | error er => rw [hg] at h; cases h
      | ok r =>
        obtain ⟨ys, qs⟩ := r
        rw [hg] at h
        dsimp only at h
        cases hl : allPathsLoop fuel s (rest ++ qs) with
        | error er => rw [hl] at h; cases h
        | ok tail =>
          rw [hl] at h
          dsimp only at h
          cases h
          obtain ⟨hys, hqs⟩ := allPathsGroup_clean hclean
            (hq (base, nodes) (List.mem_cons_self _ _)) hg
          have htail := ih (rest ++ qs) tail (by
            intro e2 he2
            rcases List.mem_append.1 he2 with he2 | he2
            · exact hq e2 (List.mem_cons_of_mem _ he2)
            · exact hqs e2 he2) hl
          intro p hp
          rcases List.mem_append.1 hp with hp | hp
          · exact hys p hp
          · exact htail p hp

theorem allPaths_clean {t : Tree} {paths : List PParts}
    (hclean : CleanStore t.store) (h : t.allPaths = .ok paths) :
    ∀ p ∈ paths, is_hidden p = false := by
  unfold Tree.allPaths at h
  exact allPathsLoop_clean hclean _ _ _
    (by
      intro e he
      rcases List.mem_cons.1 he with rfl | he'
      · rfl
      · cases he') h

theorem is_asset_fields {p : PParts} (h : is_asset p = true) :
    is_hidden p = false ∧ sfx p ≠ ".meta" := by
  unfold is_asset at h
  by_cases hc : (p.length > 1 && (p.headD "" == "Assets")) = true
  · rw [if_pos hc] at h
    simp only [Bool.and_eq_true, Bool.not_eq_true', bne_iff_ne, ne_eq] at h
    exact ⟨h.1, h.2⟩
  · rw [if_neg hc] at h
    cases h

theorem is_meta_fields {p : PParts} (h : is_meta_file p = true) :
    is_hidden p = false := by
  unfold is_meta_file at h
  by_cases hc : (p.length > 1 && (p.headD "" == "Assets")) = true
  · rw [if_pos hc] at h
    simp only [Bool.and_eq_true, Bool.not_eq_true'] at h
    exact h.1
  · rw [if_neg hc] at h
    cases h

theorem withSuffix_ok_shape {p : PParts} {x : String} {q : PParts}
    (h : withSuffix p x = .ok q) :
    q = p.dropLast ++ [newNameFor (nameOf p) x] ∧ nameOf p ≠ "" := by
  unfold withSuffix at h
  by_cases h1 : ((chars x).contains '/') = true
  · rw [if_pos h1] at h; cases h
  · rw [if_neg h1] at h
    by_cases h2 : (x ≠ "" ∧ ¬ strStarts x ".") ∨ x = "."
    · rw [if_pos h2] at h; cases h
    · rw [if_neg h2] at h
      by_cases h3 : nameOf p = ""
      · rw [if_pos h3] at h; cases h
      · rw [if_neg h3] at h
        cases h
        exact ⟨rfl, h3⟩

theorem newNameFor_clean {name : String} {x : String}
    (hname : name ≠ "") (hclean : strStarts name "." = false) :
    strStarts (newNameFor name x) "." = false := by
  obtain ⟨c0, tl0, hchars⟩ : ∃ c0 tl0, chars name = c0 :: tl0 := by
    cases hc : chars name with
    | nil => exact absurd (chars_eq_nil.1 hc) hname
    | cons c0 tl0 => exact ⟨c0, tl0, rfl⟩
  have hc0 : ('.' == c0) = false := by
    rw [strStarts_head hchars] at hclean
    exact hclean
  unfold newNameFor
  by_cases hold : (⟨sfxChars (chars name)⟩ : String) = ""
  · rw [if_pos hold]
    have : chars (strApp name x) = c0 :: (tl0 ++ chars x) := by
      rw [strApp_chars, hchars]
      rfl
    rw [strStarts_head this, hc0]
  · rw [if_neg hold]
    have hne : sfxChars (chars name) ≠ [] := by
      intro he
      exact hold (by rw [he])
    rcases sfxChars_cases (chars name) with hcs | ⟨i, hr, hi0, hilen, hcs⟩
    · exact absurd hcs hne
    · have hidx : (chars name).length - (sfxChars (chars name)).length = i := by
        rw [hcs, List.length_drop]
        have := rfindChar_lt hr
        omega
      rw [hidx]
      have htake : chars (strTake name i) = c0 :: (tl0.take (i - 1)) := by
        show (chars name).take i = c0 :: tl0.take (i - 1)
        rw [hchars]
        cases i with
        | zero => omega
        | succ i0 =>
          rw [List.take_cons]
          simp
      have : chars (strApp (strTake name i) x) = c0 :: (tl0.take (i - 1) ++ chars x) := by
        rw [strApp_chars, htake]
        rfl
      rw [strStarts_head this, hc0]

theorem nameOf_clean {p : PParts} (hp : is_hidden p = false) (hname : nameOf p ≠ "") :
    strStarts (nameOf p) "." = false := by
  have hpne : p ≠ [] := fun he => hname (by rw [he]; rfl)
  have hps : p ≠ ["/"] := fun he => hname (by rw [he]; rfl)
  have hmem : nameOf p ∈ p := by
    unfold nameOf
    rw [if_neg (by simp [hpne, hps])]
    rw [List.getLast?_eq_getLast _ hpne]
    simp only [Option.getD_some]
    exact List.getLast_mem hpne
  exact (is_hidden_eq_false_iff p).1 hp _ hmem

theorem meta_path_clean {p m : PParts} (ha : is_asset p = true)
    (h : meta_file_for_asset p = .ok m) : is_hidden m = false := by
  obtain ⟨hphidden, hpsfx⟩ := is_asset_fields ha
  unfold meta_file_for_asset at h
  rw [if_neg hpsfx] at h
  obtain ⟨hshape, hname⟩ := withSuffix_ok_shape h
  subst hshape
  rw [is_hidden_eq_false_iff]
  intro part hpart
  rcases List.mem_append.1 hpart with hd | hd
  · exact (is_hidden_eq_false_iff p).1 hphidden part ((List.dropLast_sublist p).subset hd)
  · rw [List.mem_singleton.1 hd]
    exact newNameFor_clean hname (nameOf_clean hphidden hname)

/-- C3: no hidden path (one with a segment starting with `.`) ever appears
in the checker's tree enumeration, nor in the returned missing or orphaned
sets; the spec's hidden scenario `tracked = {Assets/.hidden/a}` reports
nothing. -/
theorem hidden_never_reported :
    (∀ (repo : Repo) (t : Tree) (paths : List PParts),
      buildProposed repo = .ok t → t.allPaths = .ok paths →
      ∀ p ∈ paths, is_hidden p = false) ∧
    (∀ (repo : Repo) (succ : Bool) (miss orph : List PParts),
      check_unity_meta_files repo = .ok (succ, miss, orph) →
      ∀ p, is_hidden p = true → p ∉ miss ∧ p ∉ orph) ∧
    check_unity_meta_files repoHiddenTracked = .ok (true, [], []) := by
  refine ⟨?_, ?_, by decide⟩
  · intro repo t paths hb hp
    exact allPaths_clean (buildProposed_inv_clean hb).2 hp
  · intro repo succ miss orph h p hhid
    unfold check_unity_meta_files at h
    cases hb : buildProposed repo with
    | error e => rw [hb] at h; cases h
    | ok t =>
      rw [hb] at h
      dsimp only at h
      cases hpaths : t.allPaths with
      | error e => rw [hpaths] at h; cases h
      | ok paths =>
        rw [hpaths] at h
        dsimp only at h
        cases hcl : classifyLoop repo paths [] [] with
        | error e => rw [hcl] at h; cases h
        | ok r =>
          obtain ⟨missF, orphF⟩ := r
          rw [hcl] at h
          dsimp only at h
          cases h
          obtain ⟨hmiss, horph⟩ := classifyLoop_spec repo paths [] [] _ _ hcl
          constructor
          · intro hmem
            rcases (hmiss p).1 hmem with hm | ⟨p', -, hc⟩
            · cases hm
            · obtain ⟨ha', -, hmf, -⟩ := hc
              rw [meta_path_clean ha' hmf] at hhid
              cases hhid
          · intro hmem
            rcases (horph p).1 hmem with hm | ⟨-, hc⟩
            · cases hm
            · obtain ⟨hmeta, -, -⟩ := hc
              rw [is_meta_fields hmeta] at hhid
              cases hhid

/-- Witness for C3's general statements at the hidden-path scenario. -/
theorem hidden_never_reported_witness :
    check_unity_meta_files repoHiddenTracked = .ok (true, [], []) ∧
      is_hidden [["Assets"], [".hidden"]].getLast! = true ∧
      ((["Assets", ".hidden", "a"] : PParts) ∉ ([] : List PParts)) := by
  refine ⟨by decide, by decide, ?_⟩
  have h := (hidden_never_reported.2.1 repoHiddenTracked true [] []
    (by decide) ["Assets", ".hidden", "a"] (by decide)).1
  exact h

/-! ### C9: depth-first traversal order -/

theorem extractL_congr {f g : Nat → Option PTree}
    (hfg : ∀ j t, f j = some t → g j = some t) :
    ∀ {l : List Nat} {ts : List PTree},
      extractL f l = some ts → extractL g l = some ts := by
  intro l
  induction l with
  | nil =>
    intro ts h
    exact h
  | cons i rest ih =>
    intro ts h
    rw [extractL] at h ⊢
    cases he : f i with
    | none => rw [he] at h; cases h
    | some t =>
      rw [he] at h
      dsimp only at h
      cases hl : extractL f rest with
      | none => rw [hl] at h; cases h
      | some ts0 =>
        rw [hl] at h
        dsimp only at h
        rw [hfg _ _ he, ih hl]
        exact h

theorem extract_mono_step (s : Store) :
    ∀ d i pt, extract s d i = some pt → extract s (d + 1) i = some pt := by
  intro d
  induction d with
  | zero =>
    intro i pt h
    rw [extract] at h
    cases h
  | succ d ih =>
    intro i pt h
    rw [extract] at h ⊢
    cases hget : s.get i with
    | none => rw [hget] at h; cases h
    | some dd =>
      rw [hget] at h
      dsimp only at h ⊢
      cases hl : extractL (fun j => extract s d j) (dd.children.map (fun kv => kv.2)) with
      | none => rw [hl] at h; cases h
      | some cs =>
        rw [hl] at h
        dsimp only at h
        rw [extractL_congr ih hl]
        exact h

theorem extract_le {s : Store} {d d' : Nat} (hle : d ≤ d') :
    ∀ {i : Nat} {pt : PTree}, extract s d i = some pt → extract s d' i = some pt := by
  induction hle with
  | refl => exact fun h => h
  | step hm ih =>
    intro i pt h
    exact extract_mono_step s _ _ _ (ih h)

theorem extractL_append {f : Nat → Option PTree} {l1 l2 : List Nat}
    {ts1 ts2 : List PTree} (h1 : extractL f l1 = some ts1)
    (h2 : extractL f l2 = some ts2) :
    extractL f (l1 ++ l2) = some (ts1 ++ ts2) := by
  induction l1 generalizing ts1 with
  | nil =>
    rw [extractL] at h1
    cases h1
    simpa using h2
  | cons i rest ih =>
    rw [extractL] at h1
    cases he : f i with
    | none => rw [he] at h1; cases h1
    | some t =>
      rw [he] at h1
      dsimp only at h1
      cases hl : extractL f rest with
      | none => rw [hl] at h1; cases h1
      | some ts0 =>
        rw [hl] at h1
        dsimp only at h1
        cases h1
        rw [List.cons_append, extractL, he]
        dsimp only
        rw [ih hl]
        rfl

theorem extractL_reverse {f : Nat → Option PTree} :
    ∀ {l : List Nat} {ts : List PTree},
      extractL f l = some ts → extractL f l.reverse = some ts.reverse := by
  intro l
  induction l with
  | nil =>
    intro ts h
    rw [extractL] at h
    cases h
    rw [List.reverse_nil, extractL]
    rfl
  | cons i rest ih =>
    intro ts h
    rw [extractL] at h
    cases he : f i with
    | none => rw [he] at h; cases h
    | some t =>
      rw [he] at h
      dsimp only at h
      cases hl : extractL f rest with
      | none => rw [hl] at h; cases h
      | some ts0 =>
        rw [hl] at h
        dsimp only at h
        cases h
        rw [List.reverse_cons, List.reverse_cons]
        refine extractL_append (ih hl) ?_
        rw [extractL, he]
        dsimp only
        rw [extractL]

theorem countL_append (a b : List PTree) :
    PTree.countL (a ++ b) = PTree.countL a + PTree.countL b := by
  induction a with
  | nil => simp [PTree.countL]
  | cons t ts ih =>
    rw [List.cons_append, PTree.countL, PTree.countL, ih]
    omega

theorem countL_reverse (a : List PTree) : PTree.countL a.reverse = PTree.countL a := by
  induction a with
  | nil => rfl
  | cons t ts ih =>
    rw [List.reverse_cons, countL_append, PTree.countL, ih]
    rw [PTree.countL, PTree.countL]
    omega

theorem count_pos (t : PTree) : 1 ≤ PTree.count t := by
  cases t with
  | node nm cs =>
    rw [PTree.count]
    omega

theorem dfsForest_append (a b : List PTree) :
    PTree.dfsForest (a ++ b) = PTree.dfsForest a ++ PTree.dfsForest b := by
  induction a with
  | nil => rfl
  | cons t ts ih =>
    rw [List.cons_append, PTree.dfsForest, PTree.dfsForest, ih, List.append_assoc]

theorem dfsForest_reverse_eq (cs : List PTree) :
    PTree.dfsForest cs.reverse = PTree.dfsSpecRev cs := by
  induction cs with
  | nil => rfl
  | cons t ts ih =>
    rw [List.reverse_cons, dfsForest_append, PTree.dfsSpecRev, ih, PTree.dfsForest,
      PTree.dfsForest, List.append_nil]

theorem dfsLoop_eq (s : Store) :
    ∀ (fuel : Nat) (stack : List Nat) (d : Nat) (ts : List PTree),
      extractL (extract s d) stack = some ts → PTree.countL ts ≤ fuel →
      dfsLoop fuel s stack = .ok (PTree.dfsForest ts) := by
  intro fuel
  induction fuel with
  | zero =>
    intro stack d ts hx hc
    cases stack with
    | nil =>
      rw [extractL] at hx
      cases hx
      rfl
    | cons n rest =>
      exfalso
      rw [extractL] at hx
      cases he : extract s d n with
      | none => rw [he] at hx; cases hx
      | some t =>
        rw [he] at hx
        dsimp only at hx
        cases hl : extractL (extract s d) rest with
        | none => rw [hl] at hx; cases hx
        | some trest =>
          rw [hl] at hx
          dsimp only at hx
          cases hx
          rw [PTree.countL] at hc
          have := count_pos t
          omega
  | succ fuel ih =>
    intro stack d ts hx hc
    cases stack with
    | nil =>
      rw [extractL] at hx
      cases hx
      rfl
    | cons n rest =>
      rw [extractL] at hx
      cases he : extract s d n with
      | none => rw [he] at hx; cases hx
      | some t =>
        rw [he] at hx
        dsimp only at hx
        cases hl : extractL (extract s d) rest with
        | none => rw [hl] at hx; cases hx
        | some trest =>
          rw [hl] at hx
          dsimp only at hx
          cases hx
          cases d with
          | zero => rw [extract] at he; cases he
          | succ d0 =>
            rw [extract] at he
            cases hget : s.get n with
            | none => rw [hget] at he; cases he
            | some dd =>
              rw [hget] at he
              dsimp only at he
              cases hcs : extractL (fun j => extract s d0 j) (dd.children.map (fun kv => kv.2)) with
              | none => rw [hcs] at he; cases he
              | some cs =>
                rw [hcs] at he
                dsimp only at he
                cases he
                rw [dfsLoop, hget]
                dsimp only
                rw [PTree.countL, PTree.count] at hc
                by_cases hch : dd.children.length > 0
                · rw [if_pos hch]
                  have hrev' := extractL_congr (extract_mono_step s d0) (extractL_reverse hcs)
                  have happ := extractL_append hrev' hl
                  have hcount : PTree.countL (cs.reverse ++ trest) ≤ fuel := by
                    rw [countL_append, countL_reverse]
                    omega
                  rw [ih _ _ _ happ hcount]
                  dsimp only
                  rw [PTree.dfsForest, PTree.dfsSpec, dfsForest_append, dfsForest_reverse_eq,
                    List.cons_append]
                · rw [if_neg hch]
                  have hids : dd.children.map (fun kv => kv.2) = [] := by
                    rw [List.map_eq_nil_iff]
                    exact List.length_eq_zero.1 (by omega)
                  rw [hids, extractL] at hcs
                  cases hcs
                  have hcount : PTree.countL trest ≤ fuel := by
                    omega
                  rw [ih _ _ _ hl hcount]
                  dsimp only
                  rfl

/-- **C9.** `traverse_depth_first` visits the root node first and then the
siblings last-inserted-first, descending fully into each child's subtree
before its earlier-inserted siblings: whenever the heap reachable from the
root denotes the pure tree `pt` (within some depth bound `d`) and the fuel
covers the node count, the machine traversal returns exactly the
specification order `pt.dfsSpec`; concretely, after adding `a/b/c`,
`a/b/d`, `a/e/f` in that order, the visited names are
`[".", "a", "e", "f", "b", "d", "c"]`. -/
theorem traverse_depth_first_spec :
    (∀ (t : Tree) (pt : PTree) (d fuel : Nat),
        extract t.store d t.root = some pt → PTree.count pt ≤ fuel →
        t.traverseDepthFirst fuel = .ok pt.dfsSpec) ∧
      twAbc.traverseDepthFirst 20 = .ok [".", "a", "e", "f", "b", "d", "c"] := by
  constructor
  · intro t pt d fuel hx hc
    have hL : extractL (extract t.store d) [t.root] = some [pt] := by
      rw [extractL, hx]
      dsimp only
      rw [extractL]
    have hcount : PTree.countL [pt] ≤ fuel := by
      rw [PTree.countL, PTree.countL]
      omega
    have hloop := dfsLoop_eq t.store fuel [t.root] d [pt] hL hcount
    rw [Tree.traverseDepthFirst, hloop, PTree.dfsForest, PTree.dfsForest, List.append_nil]
  · rfl

/-- Witness for C9: the general order theorem applied to the concrete
three-path tree. -/
theorem traverse_depth_first_spec_witness :
    twAbc.traverseDepthFirst 20 = .ok ptAbc.dfsSpec :=
  traverse_depth_first_spec.1 twAbc ptAbc 10 20 (by rfl) (by norm_num [ptAbc, PTree.count, PTree.countL])

/-! ### C5: the prune contract -/

theorem parentChainAux_congr {s : Store} (hInv : Inv s) :
    ∀ fuel fuel' i, i < fuel → i < fuel' →
      parentChainAux s fuel i = parentChainAux s fuel' i := by
  intro fuel
  induction fuel with
  | zero => intro fuel' i h; omega
  | succ f ih =>
    intro fuel' i h h'
    cases fuel' with
    | zero => omega
    | succ f' =>
      rw [parentChainAux, parentChainAux]
      cases hget : s.get i with
      | none => rfl
      | some d =>
        dsimp only
        cases hp : d.parent with
        | none => rfl
        | some p =>
          dsimp only
          have hpi : p < i := hInv.parent_lt _ _ _ hget hp
          rw [ih f' p (by omega) (by omega)]

theorem ancestors_cons {s : Store} (hInv : Inv s) {i : Nat} {d : NodeData} {p : Nat}
    (hget : s.get i = some d) (hp : d.parent = some p) :
    ancestors s i = p :: ancestors s p := by
  have hpi : p < i := hInv.parent_lt _ _ _ hget hp
  rw [ancestors, parentChainAux]
  rw [hget]
  dsimp only
  rw [hp]
  dsimp only
  rw [parentChainAux_congr hInv i (p + 1) p (by omega) (by omega)]
  rfl

theorem ancestors_nil {s : Store} {i : Nat} {d : NodeData}
    (hget : s.get i = some d) (hp : d.parent = none) : ancestors s i = [] := by
  rw [ancestors, parentChainAux]
  rw [hget]
  dsimp only
  rw [hp]

theorem parentChainAux_lt {s : Store} (hInv : Inv s) :
    ∀ fuel i x, x ∈ parentChainAux s fuel i → x < i := by
  intro fuel
  induction fuel with
  | zero =>
    intro i x hx
    rw [parentChainAux] at hx
    cases hx
  | succ f ih =>
    intro i x hx
    rw [parentChainAux] at hx
    cases hget : s.get i with
    | none => rw [hget] at hx; dsimp only at hx; cases hx
    | some d =>
      rw [hget] at hx
      dsimp only at hx
      cases hp : d.parent with
      | none => rw [hp] at hx; dsimp only at hx; cases hx
      | some p =>
        rw [hp] at hx
        dsimp only at hx
        have hpi : p < i := hInv.parent_lt _ _ _ hget hp
        rcases List.mem_cons.1 hx with rfl | hx'
        · exact hpi
        · exact lt_trans (ih p x hx') hpi

theorem ancestors_lt {s : Store} (hInv : Inv s) {i x : Nat}
    (hx : x ∈ ancestors s i) : x < i :=
  parentChainAux_lt hInv (i + 1) i x hx

theorem descendantFrom_concat {s : Store} :
    ∀ {q : PParts} {i a n : _}, descendantFrom s i (q ++ [a]) = .ok n →
      ∃ m dm, descendantFrom s i q = .ok m ∧ s.get m = some dm ∧
        childLookup dm.children a = some n := by
  intro q
  induction q with
  | nil =>
    intro i a n h
    rw [List.nil_append, descendantFrom] at h
    cases hget : s.get i with
    | none => rw [hget] at h; dsimp only at h; cases h
    | some d =>
      rw [hget] at h
      dsimp only at h
      cases hcl : childLookup d.children a with
      | none => rw [hcl] at h; dsimp only at h; cases h
      | some c =>
        rw [hcl] at h
        dsimp only at h
        rw [descendantFrom] at h
        cases h
        exact ⟨i, d, rfl, hget, hcl⟩
  | cons part rest ih =>
    intro i a n h
    rw [List.cons_append, descendantFrom] at h
    cases hget : s.get i with
    | none => rw [hget] at h; dsimp only at h; cases h
    | some d =>
      rw [hget] at h
      dsimp only at h
      cases hcl : childLookup d.children part with
      | none => rw [hcl] at h; dsimp only at h; cases h
      | some c =>
        rw [hcl] at h
        dsimp only at h
        obtain ⟨m, dm, h1, h2, h3⟩ := ih h
        refine ⟨m, dm, ?_, h2, h3⟩
        rw [descendantFrom]
        rw [hget]
        dsimp only
        rw [hcl]
        exact h1

theorem descendantFrom_ok_get {s : Store} (hInv : Inv s) :
    ∀ {p : PParts} {i n : Nat} {di : NodeData}, s.get i = some di →
      descendantFrom s i p = .ok n → ∃ dn, s.get n = some dn := by
  intro p
  induction p with
  | nil =>
    intro i n di hget h
    rw [descendantFrom] at h
    cases h
    exact ⟨di, hget⟩
  | cons part rest ih =>
    intro i n di hget h
    rw [descendantFrom] at h
    rw [hget] at h
    dsimp only at h
    cases hcl : childLookup di.children part with
    | none => rw [hcl] at h; dsimp only at h; cases h
    | some c =>
      rw [hcl] at h
      dsimp only at h
      obtain ⟨cd, hcd, -, -⟩ := hInv.child_link _ _ _ _ hget (childLookup_mem hcl)
      exact ih hcd h

theorem attachedUp_root {s : Store} {r : Nat} {rd : NodeData}
    (hget : s.get r = some rd) (hp : rd.parent = none) : AttachedUp s r := by
  intro j hj
  rw [ancestors_nil hget hp] at hj
  rcases List.mem_cons.1 hj with rfl | hj'
  · intro dj pp hdj hpp
    rw [hget] at hdj
    injection hdj with hdj
    subst hdj
    rw [hp] at hpp
    cases hpp
  · cases hj'

theorem attachedUp_sub {s : Store} (hInv : Inv s) {i : Nat} {d : NodeData} {p : Nat}
    (hget : s.get i = some d) (hp : d.parent = some p)
    (h : AttachedUp s i) : AttachedUp s p := by
  intro j hj
  apply h
  rw [ancestors_cons hInv hget hp]
  exact List.mem_cons_of_mem _ hj

theorem attachedUp_descend {s : Store} (hInv : Inv s) :
    ∀ {p : PParts} {i n : Nat}, AttachedUp s i → descendantFrom s i p = .ok n →
      AttachedUp s n := by
  intro p
  induction p with
  | nil =>
    intro i n h hd
    rw [descendantFrom] at hd
    cases hd
    exact h
  | cons part rest ih =>
    intro i n h hd
    rw [descendantFrom] at hd
    cases hget : s.get i with
    | none => rw [hget] at hd; dsimp only at hd; cases hd
    | some d =>
      rw [hget] at hd
      dsimp only at hd
      cases hcl : childLookup d.children part with
      | none => rw [hcl] at hd; dsimp only at hd; cases hd
      | some c =>
        rw [hcl] at hd
        dsimp only at hd
        obtain ⟨cd, hcd, hcname, hcpar⟩ := hInv.child_link _ _ _ _ hget (childLookup_mem hcl)
        refine ih ?_ hd
        intro j hj
        rw [ancestors_cons hInv hcd hcpar] at hj
        rcases List.mem_cons.1 hj with rfl | hj'
        · intro dj pp hdj hpp
          rw [hcd] at hdj
          injection hdj with hdj
          subst hdj
          rw [hcpar] at hpp
          injection hpp with hpp
          subst hpp
          refine ⟨d, hget, ?_⟩
          rw [hcname]
          exact hcl
        · exact h j hj'

theorem ancestorWalk_notmem {s : Store} (hInv : Inv s) {limit : Nat} :
    ∀ fuel cur, cur < fuel → ∀ dcur, s.get cur = some dcur →
      limit ∉ ancestors s cur →
      ∃ stop dstop, ancestorWalk fuel s limit cur = .ok stop ∧
        s.get stop = some dstop ∧ dstop.parent = none := by
  intro fuel
  induction fuel with
  | zero => intro cur h; omega
  | succ f ih =>
    intro cur hlt dcur hget hmem
    rw [ancestorWalk]
    rw [hget]
    dsimp only
    cases hp : dcur.parent with
    | none => exact ⟨cur, dcur, rfl, hget, hp⟩
    | some p =>
      dsimp only
      have hpi := hInv.parent_lt _ _ _ hget hp
      have hchain := ancestors_cons hInv hget hp
      rw [hchain] at hmem
      simp only [List.mem_cons, not_or] at hmem
      have hne : (p == limit) = false := by
        simp only [beq_eq_false_iff_ne]
        exact fun he => hmem.1 (by rw [he])
      rw [hne]
      rw [if_neg Bool.false_ne_true]
      obtain ⟨pd, hpd⟩ := hInv.parent_mem _ _ _ hget hp
      exact ih p (by omega) pd hpd hmem.2

theorem ancestorWalk_mem {s : Store} (hInv : Inv s) {limit : Nat} :
    ∀ fuel cur, cur < fuel → ∀ dcur, s.get cur = some dcur →
      limit ∈ ancestors s cur →
      ∃ stop dstop, ancestorWalk fuel s limit cur = .ok stop ∧
        s.get stop = some dstop ∧ dstop.parent = some limit := by
  intro fuel
  induction fuel with
  | zero => intro cur h; omega
  | succ f ih =>
    intro cur hlt dcur hget hmem
    rw [ancestorWalk]
    rw [hget]
    dsimp only
    cases hp : dcur.parent with
    | none =>
      rw [ancestors_nil hget hp] at hmem
      cases hmem
    | some p =>
      dsimp only
      have hpi := hInv.parent_lt _ _ _ hget hp
      have hchain := ancestors_cons hInv hget hp
      rw [hchain] at hmem
      by_cases hpl : p = limit
      · have htrue : (p == limit) = true := by simp [hpl]
        rw [htrue, if_pos rfl]
        exact ⟨cur, dcur, rfl, hget, by rw [hp, hpl]⟩
      · have hne : (p == limit) = false := by
          simp only [beq_eq_false_iff_ne]
          exact hpl
        rw [hne, if_neg Bool.false_ne_true]
        obtain ⟨pd, hpd⟩ := hInv.parent_mem _ _ _ hget hp
        rcases List.mem_cons.1 hmem with he | hmem'
        · exact absurd he.symm hpl
        · exact ih p (by omega) pd hpd hmem'

theorem hasDescendantFrom_append_ex {s : Store} :
    ∀ {q r : PParts} {i : Nat}, hasDescendantFrom s i (q ++ r) = true →
      ∃ m, descendantFrom s i q = .ok m ∧ hasDescendantFrom s m r = true := by
  intro q
  induction q with
  | nil =>
    intro r i h
    rw [List.nil_append] at h
    exact ⟨i, rfl, h⟩
  | cons part rest ih =>
    intro r i h
    rw [List.cons_append, hasDescendantFrom] at h
    cases hget : s.get i with
    | none => rw [hget] at h; dsimp only at h; cases h
    | some d =>
      rw [hget] at h
      dsimp only at h
      cases hcl : childLookup d.children part with
      | none => rw [hcl] at h; dsimp only at h; cases h
      | some c =>
        rw [hcl] at h
        dsimp only at h
        obtain ⟨m, h1, h2⟩ := ih h
        refine ⟨m, ?_, h2⟩
        rw [descendantFrom]
        rw [hget]
        dsimp only
        rw [hcl]
        exact h1

theorem subChildren_refl (s : Store) : SubChildren s s :=
  fun _ d2 h => ⟨d2, h, rfl, rfl, fun _ _ hc => hc⟩

theorem subChildren_removeChild {s s1 : Store} {i : Nat} {nm : String} {r : Nat}
    (h : removeChild s i nm = .ok (s1, r)) : SubChildren s1 s := by
  obtain ⟨d, hget, -, -, hgi, hother, -⟩ := removeChild_spec h
  intro j d2 hj
  by_cases hji : j = i
  · subst hji
    rw [hgi] at hj
    injection hj with hj
    subst hj
    refine ⟨d, hget, rfl, rfl, ?_⟩
    intro nm' c hc
    dsimp only at hc
    by_cases hdup : nm' = nm
    · subst hdup
      rw [childPop_lookup_self] at hc
      cases hc
    · rw [childPop_lookup_ne _ hdup] at hc
      exact hc
  · rw [hother j hji] at hj
    exact ⟨d2, hj, rfl, rfl, fun _ _ hc => hc⟩

theorem subChildren_trans {s3 s2 s : Store} (h32 : SubChildren s3 s2)
    (h21 : SubChildren s2 s) : SubChildren s3 s := by
  intro j d3 hj
  obtain ⟨d2, hj2, hn32, hp32, hc32⟩ := h32 j d3 hj
  obtain ⟨d1, hj1, hn21, hp21, hc21⟩ := h21 j d2 hj2
  exact ⟨d1, hj1, hn32.trans hn21, hp32.trans hp21,
    fun nm c hc => hc21 nm c (hc32 nm c hc)⟩

theorem subChildren_unlinkSeq {pairs : List (Nat × String)} :
    ∀ {s s' : Store}, unlinkSeq s pairs = .ok s' → SubChildren s' s := by
  induction pairs with
  | nil =>
    intro s s' h
    rw [unlinkSeq] at h
    cases h
    exact subChildren_refl _
  | cons pr rest ih =>
    intro s s' h
    obtain ⟨i, nm⟩ := pr
    rw [unlinkSeq] at h
    cases hrc : removeChild s i nm with
    | error e => rw [hrc] at h; dsimp only at h; cases h
    | ok r =>
      obtain ⟨s1, x⟩ := r
      rw [hrc] at h
      dsimp only at h
      exact subChildren_trans (ih h) (subChildren_removeChild hrc)

theorem unlinkSeq_get_other {pairs : List (Nat × String)} :
    ∀ {s s' : Store}, unlinkSeq s pairs = .ok s' →
      ∀ x, (∀ pr ∈ pairs, x ≠ pr.1) → s'.get x = s.get x := by
  induction pairs with
  | nil =>
    intro s s' h x hx
    rw [unlinkSeq] at h
    cases h
    rfl
  | cons pr rest ih =>
    intro s s' h x hx
    obtain ⟨i, nm⟩ := pr
    rw [unlinkSeq] at h
    cases hrc : removeChild s i nm with
    | error e => rw [hrc] at h; dsimp only at h; cases h
    | ok r =>
      obtain ⟨s1, y⟩ := r
      rw [hrc] at h
      dsimp only at h
      obtain ⟨d, -, -, -, -, hother, -⟩ := removeChild_spec hrc
      rw [ih h x (fun pr hpr => hx pr (List.mem_cons_of_mem _ hpr))]
      exact hother x (hx (i, nm) (List.mem_cons_self _ _))

theorem subChildren_descend {s2 s : Store} (hsub : SubChildren s2 s) :
    ∀ {p : PParts} {i n : Nat}, descendantFrom s2 i p = .ok n →
      descendantFrom s i p = .ok n := by
  intro p
  induction p with
  | nil =>
    intro i n h
    rw [descendantFrom] at h ⊢
    exact h
  | cons part rest ih =>
    intro i n h
    rw [descendantFrom] at h ⊢
    cases hget : s2.get i with
    | none => rw [hget] at h; dsimp only at h; cases h
    | some d2 =>
      rw [hget] at h
      dsimp only at h
      obtain ⟨d, hd, -, -, hcl⟩ := hsub i d2 hget
      rw [hd]
      dsimp only
      cases hcl2 : childLookup d2.children part with
      | none => rw [hcl2] at h; dsimp only at h; cases h
      | some c =>
        rw [hcl2] at h
        dsimp only at h
        rw [hcl part c hcl2]
        dsimp only
        exact ih h

theorem zip_head_shape {p r : Nat} {pre rest2 anc : List Nat} {nm : String}
    {f : Nat → String} (hsplit : p :: anc = pre ++ r :: rest2) :
    (pre ++ [r]).zip (nm :: pre.map f) =
      (p, nm) :: ((pre.drop 1 ++ [r]).zip (pre.map f)) := by
  cases pre with
  | nil =>
    rw [List.nil_append] at hsplit
    injection hsplit with h1 h2
    subst h1
    rfl
  | cons a0 pre2 =>
    rw [List.cons_append] at hsplit
    injection hsplit with h1 h2
    subst h1
    rfl

theorem pruneLoop_spec {s : Store} (hInv : Inv s) (l : Nat) :
    ∀ (fuel cur : Nat), cur < fuel →
      ∀ (dcur : NodeData) (prevName : String) (sj : Store),
        AttachedUp s cur →
        s.get cur = some dcur →
        (childLookup dcur.children prevName).isSome = true →
        sj.get cur = some ⟨dcur.name, dcur.parent, childPop dcur.children prevName⟩ →
        (∀ x ∈ ancestors s cur, sj.get x = s.get x) →
        ∃ pre r rest2 s',
          cur :: ancestors s cur = pre ++ r :: rest2 ∧
          (∀ x ∈ pre, ¬ stopAt s l x) ∧ stopAt s l r ∧
          unlinkSeq sj ((pre.drop 1 ++ [r]).zip (pre.map (nameIn s))) = .ok s' ∧
          pruneLoop fuel sj l cur = .ok (s', r) := by
  intro fuel
  induction fuel with
  | zero => intro cur h; omega
  | succ f ih =>
    intro cur hlt dcur prevName sj hatt hget hprev hsj hrest
    have hnd : (dcur.children.map Prod.fst).Nodup := hInv.child_keys_nodup _ _ hget
    have hmemName : prevName ∈ dcur.children.map Prod.fst := by
      cases hcl : childLookup dcur.children prevName with
      | none => rw [hcl] at hprev; cases hprev
      | some c => exact List.mem_map_of_mem _ (childLookup_mem hcl)
    have hlen := childPop_length hnd hmemName
    rw [pruneLoop]
    rw [hsj]
    dsimp only
    by_cases hstop : stopAt s l cur
    · have hcond : dcur.parent = none ∨ cur = l ∨
          (childPop dcur.children prevName).length > 0 := by
        rw [stopAt] at hstop
        rcases hstop with hroot | hlim | hcc
        · left
          rw [isRootId] at hroot
          rw [hget] at hroot
          exact hroot
        · right; left; exact hlim
        · right; right
          rw [childCount] at hcc
          rw [hget] at hcc
          dsimp only at hcc
          omega
      rw [if_pos hcond]
      exact ⟨[], cur, ancestors s cur, sj, rfl,
        fun x hx => absurd hx (List.not_mem_nil x), hstop, rfl, rfl⟩
    · have hroot2 : ¬ isRootId s cur := fun h => hstop (Or.inl h)
      have hlim2 : cur ≠ l := fun h => hstop (Or.inr (Or.inl h))
      have hcc2 : ¬ 2 ≤ childCount s cur := fun h => hstop (Or.inr (Or.inr h))
      rw [childCount] at hcc2
      rw [hget] at hcc2
      dsimp only at hcc2
      have hcond : ¬ (dcur.parent = none ∨ cur = l ∨
          (childPop dcur.children prevName).length > 0) := by
        rintro (h1 | h2 | h3)
        · refine hroot2 ?_
          rw [isRootId]
          rw [hget]
          exact h1
        · exact hlim2 h2
        · exact hcc2 (by omega)
      rw [if_neg hcond]
      cases hp : dcur.parent with
      | none => exact absurd (Or.inl hp) hcond
      | some p =>
        dsimp only
        have hpi : p < cur := hInv.parent_lt _ _ _ hget hp
        obtain ⟨dp, hdp⟩ := hInv.parent_mem _ _ _ hget hp
        have hchain : ancestors s cur = p :: ancestors s p := ancestors_cons hInv hget hp
        have hlink : childLookup dp.children dcur.name = some cur := by
          obtain ⟨dp2, hdp2, hcl2⟩ := hatt cur (List.mem_cons_self _ _) dcur p hget hp
          rw [hdp] at hdp2
          injection hdp2 with he
          subst he
          exact hcl2
        have hsjp : sj.get p = some dp := by
          rw [hrest p (by rw [hchain]; exact List.mem_cons_self _ _)]
          exact hdp
        have hrc : removeChild sj p dcur.name =
            .ok (sj.set p ⟨dp.name, dp.parent, childPop dp.children dcur.name⟩, p) := by
          rw [removeChild]
          rw [hsjp]
          dsimp only
          rw [if_pos (by rw [hlink]; rfl)]
        rw [hrc]
        dsimp only
        have hattp : AttachedUp s p := attachedUp_sub hInv hget hp hatt
        have hprevp : (childLookup dp.children dcur.name).isSome = true := by
          rw [hlink]
          rfl
        have hsjp2 : (sj.set p ⟨dp.name, dp.parent, childPop dp.children dcur.name⟩).get p =
            some ⟨dp.name, dp.parent, childPop dp.children dcur.name⟩ := get_set_self _ _ _
        have hrestp : ∀ x ∈ ancestors s p,
            (sj.set p ⟨dp.name, dp.parent, childPop dp.children dcur.name⟩).get x = s.get x := by
          intro x hx
          have hxp : x < p := ancestors_lt hInv hx
          rw [get_set_ne _ _ (by omega)]
          refine hrest x ?_
          rw [hchain]
          exact List.mem_cons_of_mem _ hx
        obtain ⟨pre2, r, rest2, s', hsplit, hpres, hstopr, hunlink, hloop⟩ :=
          ih p (by omega) dp dcur.name _ hattp hdp hprevp hsjp2 hrestp
        have hnm : nameIn s cur = dcur.name := by
          rw [nameIn]
          rw [hget]
        refine ⟨cur :: pre2, r, rest2, s', ?_, ?_, hstopr, ?_, hloop⟩
        · rw [hchain, hsplit, List.cons_append]
        · intro x hx
          rcases List.mem_cons.1 hx with rfl | hx2
          · exact hstop
          · exact hpres x hx2
        · rw [List.drop_succ_cons, List.drop_zero, List.map_cons, hnm,
            zip_head_shape hsplit, unlinkSeq]
          rw [hrc]
          dsimp only
          exact hunlink
/-- **C5.** The `prune(path, limit_path)` contract, for resolvable `path`
and `limit_path` on a well-formed tree: when the limit node is not a proper
ancestor of the target node, the call fails with `InvalidArgumentError`;
otherwise the target node is unlinked (removing its whole subtree from the
tree) and then each successive ancestor that this leaves childless is
removed in turn, the removal stopping at the first ancestor that still has
children (i.e. had at least two before), or is the limit node, or is the
root, and that stopping ancestor - the last node left un-removed - is
returned. -/
theorem prune_contract (t : Tree) (path limit_path : PParts) (n l : Nat)
    (rd : NodeData) (hInv : Inv t.store)
    (hroot : t.store.get t.root = some rd) (hrp : rd.parent = none)
    (hdp : t.descendant path = .ok n) (hdl : t.descendant limit_path = .ok l) :
    (l ∉ ancestors t.store n → t.prune path limit_path = .error .invalidArgument) ∧
    (l ∈ ancestors t.store n →
      ∃ pre r rest2 s2,
        ancestors t.store n = pre ++ r :: rest2 ∧
        (∀ x ∈ pre, ¬ stopAt t.store l x) ∧
        stopAt t.store l r ∧
        unlinkSeq t.store
          ((pre ++ [r]).zip (nameIn t.store n :: pre.map (nameIn t.store))) = .ok s2 ∧
        t.prune path limit_path = .ok ({ t with store := s2 }, r) ∧
        (∀ q, Tree.hasDescendant { t with store := s2 } (path ++ q) = false)) := by
  have hdp2 : descendantFrom t.store t.root path = .ok n := hdp
  obtain ⟨dn, hdn⟩ := descendantFrom_ok_get hInv hroot hdp2
  have hn_lt : n < t.store.next := hInv.keys_lt _ _ hdn
  constructor
  · intro hmem
    rw [Tree.prune]
    rw [hdp]
    dsimp only
    rw [hdl]
    dsimp only
    obtain ⟨stop, dstop, hwalk, hgstop, hsnone⟩ :=
      ancestorWalk_notmem hInv (t.store.next + 1) n (by omega) dn hdn hmem
    rw [hwalk]
    dsimp only
    rw [hgstop]
    dsimp only
    rw [if_pos hsnone]
  · intro hmem
    cases hpn : dn.parent with
    | none =>
      rw [ancestors_nil hdn hpn] at hmem
      cases hmem
    | some par =>
      have hattn : AttachedUp t.store n :=
        attachedUp_descend hInv (attachedUp_root hroot hrp) hdp2
      have hchain : ancestors t.store n = par :: ancestors t.store par :=
        ancestors_cons hInv hdn hpn
      rcases List.eq_nil_or_concat path with rfl | ⟨qp, a, rfl⟩
      · rw [descendantFrom] at hdp2
        cases hdp2
        rw [hroot] at hdn
        injection hdn with he
        subst he
        rw [hrp] at hpn
        cases hpn
      · simp only [List.concat_eq_append] at hdp hdp2 ⊢
        obtain ⟨m, dm, hqm, hgm, hclm⟩ := descendantFrom_concat hdp2
        obtain ⟨cd, hcd, hcdname, hcdpar⟩ :=
          hInv.child_link _ _ _ _ hgm (childLookup_mem hclm)
        rw [hdn] at hcd
        injection hcd with he
        subst he
        rw [hpn] at hcdpar
        injection hcdpar with he2
        subst he2
        have hpar_lt : par < t.store.next := hInv.keys_lt _ _ hgm
        have hlinkn : childLookup dm.children dn.name = some n := by
          rw [hcdname]
          exact hclm
        have hrc : removeChild t.store par dn.name =
            .ok (t.store.set par ⟨dm.name, dm.parent, childPop dm.children dn.name⟩, par) := by
          rw [removeChild]
          rw [hgm]
          dsimp only
          rw [if_pos (by rw [hlinkn]; rfl)]
        have hattp : AttachedUp t.store par := attachedUp_sub hInv hdn hpn hattn
        have hprevp : (childLookup dm.children dn.name).isSome = true := by
          rw [hlinkn]
          rfl
        have hsjp : (t.store.set par ⟨dm.name, dm.parent, childPop dm.children dn.name⟩).get par
            = some ⟨dm.name, dm.parent, childPop dm.children dn.name⟩ := get_set_self _ _ _
        have hrestp : ∀ x ∈ ancestors t.store par,
            (t.store.set par ⟨dm.name, dm.parent, childPop dm.children dn.name⟩).get x
              = t.store.get x := by
          intro x hx
          exact get_set_ne _ _ (by have := ancestors_lt hInv hx; omega)
        obtain ⟨pre, r, rest2, s', hsplit, hpres, hstopr, hunl, hloop⟩ :=
          pruneLoop_spec hInv l (t.store.next + 1) par (by omega) dm dn.name _
            hattp hgm hprevp hsjp hrestp
        have hnm : nameIn t.store n = dn.name := by
          rw [nameIn]
          rw [hdn]
        obtain ⟨stop, dstop, hwalk, hgstop, hssome⟩ :=
          ancestorWalk_mem hInv (t.store.next + 1) n (by omega) dn hdn hmem
        have hprune : t.prune (qp ++ [a]) limit_path = .ok ({ t with store := s' }, r) := by
          rw [Tree.prune]
          rw [hdp]
          dsimp only
          rw [hdl]
          dsimp only
          rw [hwalk]
          dsimp only
          rw [hgstop]
          dsimp only
          rw [if_neg (by intro hh; rw [hssome] at hh; cases hh)]
          rw [hdn]
          dsimp only
          rw [hpn]
          dsimp only
          rw [hrc]
          dsimp only
          rw [hloop]
        have hs2par : s'.get par = some ⟨dm.name, dm.parent, childPop dm.children dn.name⟩ := by
          cases pre with
          | nil =>
            rw [show ((([] : List Nat).drop 1 ++ [r]).zip
                (([] : List Nat).map (nameIn t.store))) = [] from rfl, unlinkSeq] at hunl
            injection hunl with he3
            rw [← he3]
            exact hsjp
          | cons a0 pre2 =>
            rw [List.cons_append] at hsplit
            injection hsplit with h1 h2
            subst h1
            have hoth := unlinkSeq_get_other hunl par ?_
            · rw [hoth]
              exact hsjp
            · intro pr hpr
              obtain ⟨x, y⟩ := pr
              obtain ⟨hx, -⟩ := List.of_mem_zip hpr
              rw [List.drop_succ_cons, List.drop_zero] at hx
              have hxin : x ∈ ancestors t.store par := by
                rw [h2]
                rcases List.mem_append.1 hx with hx1 | hx2
                · exact List.mem_append_left _ hx1
                · have hxr : x = r := List.mem_singleton.1 hx2
                  subst hxr
                  exact List.mem_append_right _ (List.mem_cons_self _ _)
              have hxlt := ancestors_lt hInv hxin
              dsimp only
              omega
        have hsub : SubChildren s' t.store :=
          subChildren_trans (subChildren_unlinkSeq hunl) (subChildren_removeChild hrc)
        refine ⟨pre, r, rest2, s', by rw [hchain]; exact hsplit, hpres, hstopr, ?_, hprune, ?_⟩
        · rw [hnm, zip_head_shape hsplit, unlinkSeq]
          rw [hrc]
          dsimp only
          exact hunl
        · intro q
          rw [Tree.hasDescendant]
          dsimp only
          cases hb : hasDescendantFrom s' t.root ((qp ++ [a]) ++ q) with
          | false => rfl
          | true =>
            exfalso
            rw [List.append_assoc] at hb
            obtain ⟨m2, hm2, hrestm⟩ := hasDescendantFrom_append_ex hb
            have hm2b := subChildren_descend hsub hm2
            rw [hqm] at hm2b
            injection hm2b with he4
            subst he4
            rw [List.singleton_append, hasDescendantFrom] at hrestm
            rw [hs2par] at hrestm
            dsimp only at hrestm
            have hnone : childLookup (childPop dm.children dn.name) a = none := by
              rw [← hcdname]
              exact childPop_lookup_self _ _
            rw [hnone] at hrestm
            dsimp only at hrestm
            cases hrestm

/-- Witness for C5 at a concrete tree: pruning `Assets/a/b/c` bounded at
`Assets` (node 1) removes `c` (node 4) and the then-childless `b` (node 3),
stops at `a` (node 2, which still has the child `e`), and returns it. -/
theorem prune_contract_witness :
    ∃ pre r rest2 s2,
      ancestors tw5.store 4 = pre ++ r :: rest2 ∧
      (∀ x ∈ pre, ¬ stopAt tw5.store 1 x) ∧
      stopAt tw5.store 1 r ∧
      unlinkSeq tw5.store
        ((pre ++ [r]).zip (nameIn tw5.store 4 :: pre.map (nameIn tw5.store))) = .ok s2 ∧
      tw5.prune ["Assets", "a", "b", "c"] ["Assets"] = .ok ({ tw5 with store := s2 }, r) ∧
      (∀ q, Tree.hasDescendant { tw5 with store := s2 }
        (["Assets", "a", "b", "c"] ++ q) = false) :=
  (prune_contract tw5 ["Assets", "a", "b", "c"] ["Assets"] 4 1 ⟨".", none, [("Assets", 1)]⟩
      (fromIterable_inv_clean (by decide)
        (rfl : fromIterable [["Assets", "a", "b", "c"], ["Assets", "a", "e"]] [] = .ok tw5)).1
      rfl rfl rfl rfl).2 (by decide)

end UnityHooks
